import Mathlib

/-!
Shallow embedding of the AVL-tree ordered-set container in src/avl_tree.cpp.

The C++ class `Set<ValueType>` keeps
  * a pointer-based AVL tree (`Node` with `val`, stored height `h`,
    `left`/`right`, and `iter`, an iterator into the mirror list), and
  * `std::list<ValueType> items`, the Order-Mirror Sequence, plus a
    count `sz`.

Embedding choices:
  * `Tree α` is the pointer tree; `nullptr` is `Tree.leaf`.
  * The `std::list` is `List (ℕ × α)`: each cell carries a stable
    identity (a `ℕ` tag standing for the cell address) and its value.
    A list iterator is the tag of the cell it points at; the past-the-end
    iterator `end()` is `none`, so the C++ type `iterator` becomes
    `Option ℕ` and a node's always-valid `iter` field is a bare `ℕ`.
    Fresh tags come from the counter `nid` of the container state, the
    embedding of the allocator handing out distinct cell addresses.
  * `size_t sz` is modelled as `ℕ` (the spec declares allocation
    exhaustion out of scope, so counts stay far below 2^64 and machine
    wrap-around never matters); `int` heights are `ℕ` where stored
    (the code only ever stores `1` or `1 + max`, both nonnegative) and
    height differences are computed in `ℤ` exactly as the `int`
    subtraction in `diff` does.
  * Each C++ member function becomes a function taking the state it
    reads explicitly; in-place pointer mutation becomes returning the
    new subtree, and mutation of `items` becomes returning the new list.
-/

set_option linter.unusedSectionVars false
set_option linter.unnecessarySeqFocus false

namespace AVL

/-- Pointer tree of the C++ `Node` struct: value, stored height `h`,
left and right subtrees, and the tag of the node's mirror-list cell. -/
inductive Tree (α : Type) where
  | leaf : Tree α
  | node (val : α) (h : ℕ) (left right : Tree α) (iter : ℕ) : Tree α
deriving DecidableEq

variable {α : Type} [LinearOrder α]

/-- C++ `height(Node*)`: stored height, 0 for `nullptr`. -/
def height : Tree α → ℕ
  | .leaf => 0
  | .node _ h _ _ _ => h

/-- Actual height of the tree (not the stored field). -/
def realHeight : Tree α → ℕ
  | .leaf => 0
  | .node _ _ l r _ => 1 + max (realHeight l) (realHeight r)

/-- C++ `diff(Node*)`: height(right) - height(left) as `int`, 0 for null. -/
def diff : Tree α → ℤ
  | .leaf => 0
  | .node _ _ l r _ => (height r : ℤ) - height l

/-- C++ `relax(Node*)`: recompute the stored height from the children.
The source always calls it on a non-null node; on `leaf` (null) we return
`leaf`, a branch no guarded call reaches. -/
def relax : Tree α → Tree α
  | .leaf => .leaf
  | .node v _ l r it => .node v (1 + max (height l) (height r)) l r it

/-- C++ `rotate_left`: the right child becomes the subtree root.  The
source dereferences `node->right`, so the function is only ever called
with a non-null right child; other shapes are returned unchanged. -/
def rotate_left : Tree α → Tree α
  | .node v h l (.node cv ch cl cr cit) it =>
      match relax (.node v h l cl it) with
      | n => relax (.node cv ch n cr cit)
  | t => t

/-- C++ `rotate_right`: mirror image of `rotate_left`. -/
def rotate_right : Tree α → Tree α
  | .node v h (.node cv ch cl cr cit) r it =>
      match relax (.node v h cr r it) with
      | n => relax (.node cv ch cl n cit)
  | t => t

/-- C++ `balance(Node*)`: relax the node, then correct a balance factor
of exactly plus or minus 2 with a single or double rotation. -/
def balance : Tree α → Tree α
  | .leaf => .leaf
  | .node v _ l r it =>
      let h2 := 1 + max (height l) (height r)
      if (height r : ℤ) - height l = 2 then
        if diff r < 0 then rotate_left (Tree.node v h2 l (rotate_right r) it)
        else rotate_left (Tree.node v h2 l r it)
      else if (height r : ℤ) - height l = -2 then
        if diff l > 0 then rotate_right (Tree.node v h2 (rotate_left l) r it)
        else rotate_right (Tree.node v h2 l r it)
      else Tree.node v h2 l r it

/-- In-order list of (cell tag, value) of all nodes: this is what the
Order-Mirror Sequence must coincide with. -/
def pairs : Tree α → List (ℕ × α)
  | .leaf => []
  | .node v _ l r it => pairs l ++ (it, v) :: pairs r

/-- In-order list of the stored values. -/
def vals (t : Tree α) : List α := (pairs t).map Prod.snd

/-- Number of nodes of the tree. -/
def nodeCount : Tree α → ℕ
  | .leaf => 0
  | .node _ _ l r _ => nodeCount l + nodeCount r + 1

/-- C++ `search(Node*, elem)`: descend by comparison, return the
matching node's list iterator, or `end()` (here `none`). -/
def search : Tree α → α → Option ℕ
  | .leaf, _ => none
  | .node v _ l r it, e =>
      if e < v then search l e
      else if v < e then search r e
      else some it

/-- C++ `lb(Node*, elem)`: lower bound; when descending left, fall back
on the current node if the left subtree reports end(). -/
def lb : Tree α → α → Option ℕ
  | .leaf, _ => none
  | .node v _ l r it, e =>
      if e < v then
        match lb l e with
        | none => some it
        | some x => some x
      else if v < e then lb r e
      else some it

/-- C++ `items.insert(pos, elem)`: splice a new cell in front of the
cell tagged `tid`.  Valid iterators always name a present cell; the
not-found fallback (append) is never reached from guarded calls. -/
def insertBeforeId : List (ℕ × α) → ℕ → (ℕ × α) → List (ℕ × α)
  | [], _, p => [p]
  | q :: rest, tid, p =>
      if q.1 = tid then p :: q :: rest else q :: insertBeforeId rest tid p

/-- The two branches of the leaf case of `put`: `push_back` when the
lower bound is `end()`, `items.insert` in front of it otherwise. -/
def insertBeforeOpt (its : List (ℕ × α)) (tgt : Option ℕ) (p : ℕ × α) :
    List (ℕ × α) :=
  match tgt with
  | none => its ++ [p]
  | some tid => insertBeforeId its tid p

/-- C++ `items.erase(it)`: drop the cell tagged `tid`. -/
def eraseId : List (ℕ × α) → ℕ → List (ℕ × α)
  | [], _ => []
  | q :: rest, tid => if q.1 = tid then rest else q :: eraseId rest tid

/-- C++ `put(Node*, elem)`: BST descent; at the null position compute
the lower bound against the whole pre-insertion tree `root`, place the
new value in the mirror list right before it (or at the back), build
the leaf with that cell, and rebalance on the way out.  Returns the new
subtree, the new mirror list, and the next fresh cell tag. -/
def put (root : Tree α) : Tree α → α → List (ℕ × α) → ℕ →
    Tree α × List (ℕ × α) × ℕ
  | .leaf, e, its, n =>
      (Tree.node e 1 .leaf .leaf n, insertBeforeOpt its (lb root e) (n, e), n + 1)
  | .node v h l r it, e, its, n =>
      if e < v then
        match put root l e its n with
        | (l2, its2, n2) => (balance (Tree.node v h l2 r it), its2, n2)
      else
        match put root r e its n with
        | (r2, its2, n2) => (balance (Tree.node v h l r2 it), its2, n2)

/-- C++ `find_min`: leftmost node of a (non-null) subtree. -/
def find_min : Tree α → Tree α
  | .leaf => .leaf
  | .node v h .leaf r it => .node v h .leaf r it
  | .node _ _ (.node lv lh ll lr lit) _ _ => find_min (.node lv lh ll lr lit)

/-- C++ `remove_min`: splice out the leftmost node, rebalancing the
spine.  The source dereferences its argument, so `leaf` is never
passed by guarded calls. -/
def remove_min : Tree α → Tree α
  | .leaf => .leaf
  | .node _ _ .leaf r _ => r
  | .node v h (.node lv lh ll lr lit) r it =>
      balance (Tree.node v h (remove_min (.node lv lh ll lr lit)) r it)

/-- C++ `del(Node*, elem)`: BST descent; on the match erase the node's
mirror cell, splice the left child in if there is no right child, and
otherwise promote the minimum of the right subtree.  Returns the new
subtree and the new mirror list. -/
def del : Tree α → α → List (ℕ × α) → Tree α × List (ℕ × α)
  | .leaf, _, its => (.leaf, its)
  | .node v h l r it, e, its =>
      if e < v then
        match del l e its with
        | (l2, its2) => (balance (Tree.node v h l2 r it), its2)
      else if v < e then
        match del r e its with
        | (r2, its2) => (balance (Tree.node v h l r2 it), its2)
      else
        let its2 := eraseId its it
        match r with
        | .leaf => (l, its2)
        | .node rv rh rl rr rit =>
            match find_min (.node rv rh rl rr rit) with
            | .node mv mh _ _ mit =>
                (balance (Tree.node mv mh l
                    (remove_min (.node rv rh rl rr rit)) mit), its2)
            | .leaf => (.leaf, its2)

/-- The container: tree root, element count, the Order-Mirror Sequence,
and the fresh-cell-tag counter (the embedding of the allocator). -/
structure Set (α : Type) where
  root : Tree α
  sz : ℕ
  items : List (ℕ × α)
  nid : ℕ
deriving DecidableEq

/-- The default-constructed empty container. -/
def emptySet : Set α := ⟨.leaf, 0, [], 0⟩

/-- C++ `size()`. -/
def Set.size (s : Set α) : ℕ := s.sz

/-- C++ `empty()`. -/
def Set.empty (s : Set α) : Bool := s.sz = 0

/-- C++ `find(elem)` on the container. -/
def Set.find (s : Set α) (e : α) : Option ℕ := search s.root e

/-- C++ `lower_bound(elem)` on the container. -/
def Set.lower_bound (s : Set α) (e : α) : Option ℕ := lb s.root e

/-- C++ `insert(elem)`: only when `find(elem) == end()` run `put` from
the root and increment the count. -/
def Set.insert (s : Set α) (e : α) : Set α :=
  if s.find e = none then
    match put s.root s.root e s.items s.nid with
    | (r2, its2, n2) => ⟨r2, s.sz + 1, its2, n2⟩
  else s

/-- C++ `erase(elem)`: only when `find(elem) != end()` run `del` from
the root and decrement the count. -/
def Set.erase (s : Set α) (e : α) : Set α :=
  if s.find e ≠ none then
    match del s.root e s.items with
    | (r2, its2) => ⟨r2, s.sz - 1, its2, s.nid⟩
  else s

/-- Copy construction and copy assignment: both rebuild from an empty
state by inserting the source's mirror-sequence values in order. -/
def copySet (s : Set α) : Set α :=
  s.items.foldl (fun acc p => acc.insert p.2) emptySet

/-- States reachable from the default constructor by the two mutating
operations.  The range, initializer-list and copy constructors only
iterate `insert` from the empty state, so they land in this set too. -/
inductive Reachable : Set α → Prop
  | empty : Reachable emptySet
  | ins (s : Set α) (a : α) : Reachable s → Reachable (s.insert a)
  | ers (s : Set α) (a : α) : Reachable s → Reachable (s.erase a)

/-- One public mutating operation. -/
inductive Op (α : Type) where
  | ins (a : α) : Op α
  | ers (a : α) : Op α

/-- Apply one operation. -/
def step (s : Set α) : Op α → Set α
  | .ins a => s.insert a
  | .ers a => s.erase a

/-- Run a sequence of operations from the empty container. -/
def run (ops : List (Op α)) : Set α := ops.foldl step emptySet

/-- Membership history: `memAccum m ops e` is whether `e` is a member
after running `ops` when `m` says whether it was a member before. -/
def memAccum (m : Bool) (ops : List (Op α)) (e : α) : Bool :=
  ops.foldl
    (fun m op =>
      match op with
      | .ins a => if a = e then true else m
      | .ers a => if a = e then false else m) m

/-- Whether `e` was inserted and not subsequently erased in `ops`. -/
def memAfter (ops : List (Op α)) (e : α) : Bool := memAccum false ops e

/-- The AVL shape invariant of the claims: every stored height field is
1 + the maximum of the children's actual heights, and the two actual
child heights differ by at most one, at every node. -/
def Avl : Tree α → Prop
  | .leaf => True
  | .node _ h l r _ =>
      Avl l ∧ Avl r ∧ h = 1 + max (realHeight l) (realHeight r) ∧
        realHeight l ≤ realHeight r + 1 ∧ realHeight r ≤ realHeight l + 1

/-- Insertion of a fresh cell at the sorted position: in front of the
first entry whose value is not below `e`. -/
def seqInsert (ps : List (ℕ × α)) (e : α) (n : ℕ) : List (ℕ × α) :=
  ps.takeWhile (fun p => decide (p.2 < e)) ++
    (n, e) :: ps.dropWhile (fun p => decide (p.2 < e))

/-- The coupling invariant of the container: the mirror list coincides
with the in-order (tag, value) listing of the tree, values are strictly
sorted, cell tags are distinct and below the allocation counter, the
tree is an AVL tree with correct stored heights, and the count matches. -/
structure Inv (s : Set α) : Prop where
  items_eq : s.items = pairs s.root
  sorted : List.Sorted (· < ·) (vals s.root)
  ids_lt : ∀ p ∈ pairs s.root, p.1 < s.nid
  ids_nodup : ((pairs s.root).map Prod.fst).Nodup
  avl : Avl s.root
  sz_eq : s.sz = s.items.length

/-- The golden ratio, the base of the AVL height bound. -/
noncomputable def phiR : ℝ := (1 + Real.sqrt 5) / 2

/-- A concrete reachable state used by the witness theorems. -/
def sampleSet : Set ℤ := ((((emptySet.insert 2).insert 5).insert 3).insert 1).erase 5

/-- A concrete one-element state used by the C4 counterexample. -/
def oneSet : Set ℤ := emptySet.insert 0

/-! ### Basic facts about in-order listings and heights. -/

theorem vals_node (v : α) (h : ℕ) (l r : Tree α) (it : ℕ) :
    vals (Tree.node v h l r it) = vals l ++ v :: vals r := by
  simp [vals, pairs]

theorem vals_leaf : vals (Tree.leaf : Tree α) = [] := rfl

theorem length_pairs (t : Tree α) : (pairs t).length = nodeCount t := by
  induction t with
  | leaf => rfl
  | node v h l r it ihl ihr => simp [pairs, nodeCount, ihl, ihr]; omega

theorem height_eq_realHeight {t : Tree α} (ha : Avl t) : height t = realHeight t := by
  cases t with
  | leaf => rfl
  | node v h l r it => simpa [height, realHeight] using ha.2.2.1

theorem pairs_rotate_left (t : Tree α) : pairs (rotate_left t) = pairs t := by
  rcases t with _ | ⟨v, h, l, r, it⟩
  · rfl
  rcases r with _ | ⟨cv, ch, cl, cr, cit⟩
  · rfl
  simp [rotate_left, relax, pairs]

theorem pairs_rotate_right (t : Tree α) : pairs (rotate_right t) = pairs t := by
  rcases t with _ | ⟨v, h, l, r, it⟩
  · rfl
  rcases l with _ | ⟨cv, ch, cl, cr, cit⟩
  · rfl
  simp [rotate_right, relax, pairs]

theorem pairs_balance (t : Tree α) : pairs (balance t) = pairs t := by
  rcases t with _ | ⟨v, h, l, r, it⟩
  · rfl
  simp only [balance]
  split_ifs <;>
    simp [pairs_rotate_left, pairs_rotate_right, pairs]

theorem sorted_node_unpack {v : α} {h : ℕ} {l r : Tree α} {it : ℕ}
    (hs : List.Sorted (· < ·) (vals (Tree.node v h l r it))) :
    List.Sorted (· < ·) (vals l) ∧ List.Sorted (· < ·) (vals r) ∧
      (∀ x ∈ vals l, x < v) ∧ (∀ y ∈ vals r, v < y) := by
  rw [vals_node] at hs
  rw [List.Sorted, List.pairwise_append] at hs
  obtain ⟨h1, h2, h3⟩ := hs
  rw [List.pairwise_cons] at h2
  exact ⟨h1, h2.2, fun x hx => h3 x hx v (List.mem_cons_self v (vals r)), h2.1⟩

/-! ### List helper lemmas. -/

theorem takeWhile_append_stop (p : ℕ × α → Bool) (l1 l2 : List (ℕ × α))
    (q : ℕ × α) (hq : p q = false) :
    ((l1 ++ q :: l2).takeWhile p) = l1.takeWhile p := by
  induction l1 with
  | nil => simp [List.takeWhile, hq]
  | cons x rest ih =>
      simp only [List.cons_append, List.takeWhile]
      cases hx : p x <;> simp [hx, ih]

theorem dropWhile_append_stop (p : ℕ × α → Bool) (l1 l2 : List (ℕ × α))
    (q : ℕ × α) (hq : p q = false) :
    ((l1 ++ q :: l2).dropWhile p) = l1.dropWhile p ++ q :: l2 := by
  induction l1 with
  | nil => simp [List.dropWhile, hq]
  | cons x rest ih =>
      simp only [List.cons_append, List.dropWhile]
      cases hx : p x <;> simp [hx, ih]

theorem takeWhile_append_all (p : ℕ × α → Bool) (l1 l2 : List (ℕ × α))
    (h : ∀ x ∈ l1, p x = true) :
    ((l1 ++ l2).takeWhile p) = l1 ++ l2.takeWhile p := by
  induction l1 with
  | nil => simp
  | cons x rest ih =>
      have hx := h x (List.mem_cons_self x rest)
      simp only [List.cons_append, List.takeWhile, hx]
      simp [ih fun y hy => h y (List.mem_cons_of_mem x hy)]

theorem dropWhile_append_all (p : ℕ × α → Bool) (l1 l2 : List (ℕ × α))
    (h : ∀ x ∈ l1, p x = true) :
    ((l1 ++ l2).dropWhile p) = l2.dropWhile p := by
  induction l1 with
  | nil => simp
  | cons x rest ih =>
      have hx := h x (List.mem_cons_self x rest)
      simp only [List.cons_append, List.dropWhile, hx]
      exact ih fun y hy => h y (List.mem_cons_of_mem x hy)

theorem seqInsert_nil (e : α) (n : ℕ) : seqInsert ([] : List (ℕ × α)) e n = [(n, e)] := rfl

theorem seqInsert_length (ps : List (ℕ × α)) (e : α) (n : ℕ) :
    (seqInsert ps e n).length = ps.length + 1 := by
  have h := List.takeWhile_append_dropWhile (p := fun p : ℕ × α => decide (p.2 < e)) (l := ps)
  rw [seqInsert]
  have h2 := congrArg List.length h
  simp only [List.length_append] at h2
  simp [List.length_append]
  omega

theorem seqInsert_decomp (ps : List (ℕ × α)) (e : α) (n : ℕ) :
    ∃ l1 l2, ps = l1 ++ l2 ∧ seqInsert ps e n = l1 ++ (n, e) :: l2 ∧
      (∀ x ∈ l1, x.2 < e) ∧ ∀ x ∈ l2, ¬ x.2 < e ∨ x ∈ l2 := by
  refine ⟨ps.takeWhile (fun p => decide (p.2 < e)),
    ps.dropWhile (fun p => decide (p.2 < e)),
    (List.takeWhile_append_dropWhile _ _).symm, rfl, ?_, fun x hx => Or.inr hx⟩
  intro x hx
  simpa using List.mem_takeWhile_imp hx

theorem mem_seqInsert (ps : List (ℕ × α)) (e : α) (n : ℕ) (p : ℕ × α) :
    p ∈ seqInsert ps e n ↔ p = (n, e) ∨ p ∈ ps := by
  obtain ⟨l1, l2, hps, hseq, -, -⟩ := seqInsert_decomp ps e n
  rw [hseq, hps]
  simp [List.mem_append]
  tauto

theorem mem_seqInsert_snd (ps : List (ℕ × α)) (e : α) (n : ℕ) (x : α) :
    x ∈ (seqInsert ps e n).map Prod.snd ↔ x = e ∨ x ∈ ps.map Prod.snd := by
  simp only [List.mem_map]
  constructor
  · rintro ⟨p, hp, rfl⟩
    rcases (mem_seqInsert ps e n p).mp hp with h | h
    · left; rw [h]
    · right; exact ⟨p, h, rfl⟩
  · rintro (rfl | ⟨p, hp, rfl⟩)
    · exact ⟨(n, x), (mem_seqInsert ps x n _).mpr (Or.inl rfl), rfl⟩
    · exact ⟨p, (mem_seqInsert ps e n p).mpr (Or.inr hp), rfl⟩

theorem seqInsert_ids_nodup (ps : List (ℕ × α)) (e : α) (n : ℕ)
    (hnd : (ps.map Prod.fst).Nodup) (hn : ∀ p ∈ ps, p.1 < n) :
    ((seqInsert ps e n).map Prod.fst).Nodup := by
  obtain ⟨l1, l2, hps, hseq, -, -⟩ := seqInsert_decomp ps e n
  rw [hseq]
  simp only [List.map_append, List.map_cons]
  rw [List.nodup_middle]
  rw [List.nodup_cons]
  constructor
  · rw [← List.map_append, ← hps]
    intro hmem
    obtain ⟨p, hp, hpe⟩ := List.mem_map.mp hmem
    exact absurd hpe (Nat.ne_of_lt (hn p hp))
  · rw [← List.map_append, ← hps]
    exact hnd

theorem sorted_seqInsert (ps : List (ℕ × α)) (e : α) (n : ℕ)
    (hs : List.Sorted (· < ·) (ps.map Prod.snd))
    (hne : ∀ p ∈ ps, p.2 ≠ e) :
    List.Sorted (· < ·) ((seqInsert ps e n).map Prod.snd) := by
  induction ps with
  | nil => simp [seqInsert_nil]
  | cons q rest ih =>
      rw [List.map_cons, List.sorted_cons] at hs
      by_cases hq : q.2 < e
      · have hseq : seqInsert (q :: rest) e n = q :: seqInsert rest e n := by
          rw [seqInsert, seqInsert]
          simp [List.takeWhile, List.dropWhile, hq]
        rw [hseq, List.map_cons, List.sorted_cons]
        refine ⟨?_, ih hs.2 fun p hp => hne p (List.mem_cons_of_mem q hp)⟩
        intro b hb
        rcases (mem_seqInsert_snd rest e n b).mp hb with rfl | hmem
        · exact hq
        · exact hs.1 b hmem
      · have hlt : e < q.2 :=
          lt_of_le_of_ne (not_lt.mp hq) (Ne.symm (hne q (List.mem_cons_self q rest)))
        have hseq : seqInsert (q :: rest) e n = (n, e) :: q :: rest := by
          rw [seqInsert]
          simp [List.takeWhile, List.dropWhile, hq]
        rw [hseq, List.map_cons, List.map_cons, List.sorted_cons, List.sorted_cons]
        refine ⟨?_, hs.1, hs.2⟩
        intro b hb
        rcases List.mem_cons.mp hb with rfl | hmem
        · exact hlt
        · exact hlt.trans (hs.1 b hmem)

/-! ### The items and tree components of put. -/

theorem put_snd (root t : Tree α) (e : α) (its : List (ℕ × α)) (n : ℕ) :
    (put root t e its n).2.1 = insertBeforeOpt its (lb root e) (n, e) ∧
      (put root t e its n).2.2 = n + 1 := by
  induction t with
  | leaf => simp [put]
  | node v h l r it ihl ihr =>
      by_cases hc : e < v
      · rcases hp : put root l e its n with ⟨l2, its2, n2⟩
        rw [hp] at ihl
        simpa [put, if_pos hc, hp] using ihl
      · rcases hp : put root r e its n with ⟨r2, its2, n2⟩
        rw [hp] at ihr
        simpa [put, if_neg hc, hp] using ihr

theorem put_tree_pairs (root t : Tree α) (e : α) (its : List (ℕ × α)) (n : ℕ)
    (hs : List.Sorted (· < ·) (vals t)) (hne : ∀ x ∈ vals t, x ≠ e) :
    pairs ((put root t e its n).1) = seqInsert (pairs t) e n := by
  induction t with
  | leaf => simp [put, pairs, seqInsert_nil]
  | node v h l r it ihl ihr =>
      obtain ⟨hsl, hsr, hlv, hvr⟩ := sorted_node_unpack hs
      have hvmem : v ∈ vals (Tree.node v h l r it) := by
        rw [vals_node]
        exact List.mem_append_right _ (List.mem_cons_self v (vals r))
      have hvne : v ≠ e := hne v hvmem
      have hnel : ∀ x ∈ vals l, x ≠ e := by
        intro x hx
        refine hne x ?_
        rw [vals_node]
        exact List.mem_append_left _ hx
      have hner : ∀ x ∈ vals r, x ≠ e := by
        intro x hx
        refine hne x ?_
        rw [vals_node]
        exact List.mem_append_right _ (List.mem_cons_of_mem v hx)
      by_cases hc : e < v
      · rcases hp : put root l e its n with ⟨l2, its2, n2⟩
        have ihl2 : pairs l2 = seqInsert (pairs l) e n := by
          have := ihl hsl hnel
          rwa [hp] at this
        simp only [put, if_pos hc, hp, pairs_balance, pairs]
        rw [ihl2, seqInsert, seqInsert]
        have hstop : (fun p : ℕ × α => decide (p.2 < e)) (it, v) = false := by
          simp [asymm hc]
        rw [takeWhile_append_stop _ _ _ _ hstop, dropWhile_append_stop _ _ _ _ hstop]
        simp [List.append_assoc]
      · have hvlt : v < e := lt_of_le_of_ne (not_lt.mp hc) hvne
        rcases hp : put root r e its n with ⟨r2, its2, n2⟩
        have ihr2 : pairs r2 = seqInsert (pairs r) e n := by
          have := ihr hsr hner
          rwa [hp] at this
        simp only [put, if_neg hc, hp, pairs_balance, pairs]
        rw [ihr2, seqInsert, seqInsert]
        have hall : ∀ x ∈ pairs l, (fun p : ℕ × α => decide (p.2 < e)) x = true := by
          intro x hx
          have : x.2 ∈ vals l := List.mem_map_of_mem Prod.snd hx
          simp [lt_trans (hlv x.2 this) hvlt]
        rw [takeWhile_append_all _ _ _ hall, dropWhile_append_all _ _ _ hall]
        have hhd : (fun p : ℕ × α => decide (p.2 < e)) (it, v) = true := by simp [hvlt]
        simp only [List.takeWhile, List.dropWhile, hhd]
        simp [List.append_assoc]

/-! ### The AVL shape is restored by balance, put, remove_min and del. -/

theorem height_node (v : α) (h : ℕ) (l r : Tree α) (it : ℕ) :
    height (Tree.node v h l r it) = h := rfl

theorem height_leaf : height (Tree.leaf : Tree α) = 0 := rfl

theorem realHeight_node (v : α) (h : ℕ) (l r : Tree α) (it : ℕ) :
    realHeight (Tree.node v h l r it) = 1 + max (realHeight l) (realHeight r) := rfl

theorem realHeight_leaf : realHeight (Tree.leaf : Tree α) = 0 := rfl

theorem balance_spec (v : α) (h0 : ℕ) (l r : Tree α) (it : ℕ)
    (hal : Avl l) (har : Avl r)
    (hd1 : realHeight l ≤ realHeight r + 2) (hd2 : realHeight r ≤ realHeight l + 2) :
    Avl (balance (Tree.node v h0 l r it)) ∧
      max (realHeight l) (realHeight r) ≤ realHeight (balance (Tree.node v h0 l r it)) ∧
      realHeight (balance (Tree.node v h0 l r it)) ≤ max (realHeight l) (realHeight r) + 1 ∧
      (realHeight l ≤ realHeight r + 1 → realHeight r ≤ realHeight l + 1 →
        realHeight (balance (Tree.node v h0 l r it)) =
          max (realHeight l) (realHeight r) + 1) := by
  have el : height l = realHeight l := height_eq_realHeight hal
  have er : height r = realHeight r := height_eq_realHeight har
  simp only [balance, el, er]
  by_cases hA : (realHeight r : ℤ) - realHeight l = 2
  · rw [if_pos hA]
    rcases r with _ | ⟨rv, rh, rl, rr, rit⟩
    · exfalso
      simp only [realHeight_leaf] at hA
      omega
    obtain ⟨harl, harr, hrhs, hb1, hb2⟩ := har
    have err : height rr = realHeight rr := height_eq_realHeight harr
    by_cases hB : diff (Tree.node rv rh rl rr rit) < 0
    · rw [if_pos hB]
      have erl : height rl = realHeight rl := height_eq_realHeight harl
      simp only [diff, height_node, erl, err] at hB
      rcases rl with _ | ⟨m, mh, a, b, mit⟩
      · exfalso
        simp only [realHeight_leaf] at hB
        omega
      obtain ⟨haa, hab, hmhs, hc1, hc2⟩ := harl
      have ea : height a = realHeight a := height_eq_realHeight haa
      have eb : height b = realHeight b := height_eq_realHeight hab
      simp only [realHeight_node, realHeight_leaf] at hA hB hd1 hd2 hb1 hb2 hc1 hc2 hrhs hmhs
      simp only [rotate_right, rotate_left, relax, height_node, height_leaf, el, er,
        ea, eb, err, hrhs, hmhs]
      simp only [Avl, realHeight_node, realHeight_leaf]
      refine ⟨⟨⟨hal, haa, trivial, by omega, by omega⟩,
        ⟨hab, harr, trivial, by omega, by omega⟩, trivial, by omega, by omega⟩,
        by omega, by omega, by omega⟩
    · rw [if_neg hB]
      have erl : height rl = realHeight rl := height_eq_realHeight harl
      simp only [diff, height_node, erl, err] at hB
      simp only [realHeight_node, realHeight_leaf] at hA hd1 hd2 hb1 hb2 hrhs
      simp only [rotate_left, relax, height_node, height_leaf, el, er, erl, err, hrhs]
      simp only [Avl, realHeight_node, realHeight_leaf]
      refine ⟨⟨⟨hal, harl, trivial, by omega, by omega⟩, harr, trivial, by omega,
        by omega⟩, by omega, by omega, by omega⟩
  · rw [if_neg hA]
    by_cases hC : (realHeight r : ℤ) - realHeight l = -2
    · rw [if_pos hC]
      rcases l with _ | ⟨lv, lh, ll, lr, lit⟩
      · exfalso
        simp only [realHeight_leaf] at hC
        omega
      obtain ⟨hall, halr, hlhs, hb1, hb2⟩ := hal
      have ell : height ll = realHeight ll := height_eq_realHeight hall
      by_cases hB : diff (Tree.node lv lh ll lr lit) > 0
      · rw [if_pos hB]
        have elr : height lr = realHeight lr := height_eq_realHeight halr
        simp only [diff, height_node, ell, elr] at hB
        rcases lr with _ | ⟨m, mh, a, b, mit⟩
        · exfalso
          simp only [realHeight_leaf] at hB
          omega
        obtain ⟨haa, hab, hmhs, hc1, hc2⟩ := halr
        have ea : height a = realHeight a := height_eq_realHeight haa
        have eb : height b = realHeight b := height_eq_realHeight hab
        simp only [realHeight_node, realHeight_leaf] at hC hB hd1 hd2 hb1 hb2 hc1 hc2 hlhs hmhs
        simp only [rotate_left, rotate_right, relax, height_node, height_leaf, el, er,
          ea, eb, ell, hlhs, hmhs]
        simp only [Avl, realHeight_node, realHeight_leaf]
        refine ⟨⟨⟨hall, haa, trivial, by omega, by omega⟩,
          ⟨hab, har, trivial, by omega, by omega⟩, trivial, by omega, by omega⟩,
          by omega, by omega, by omega⟩
      · rw [if_neg hB]
        have elr : height lr = realHeight lr := height_eq_realHeight halr
        simp only [diff, height_node, ell, elr] at hB
        simp only [realHeight_node, realHeight_leaf] at hC hd1 hd2 hb1 hb2 hlhs
        simp only [rotate_right, relax, height_node, height_leaf, el, er, ell, elr, hlhs]
        simp only [Avl, realHeight_node, realHeight_leaf]
        refine ⟨⟨hall, ⟨halr, har, trivial, by omega, by omega⟩, trivial, by omega,
          by omega⟩, by omega, by omega, by omega⟩
    · rw [if_neg hC]
      simp only [Avl, realHeight_node, realHeight_leaf]
      refine ⟨⟨hal, har, trivial, by omega, by omega⟩, by omega, by omega, by omega⟩

theorem put_avl (root t : Tree α) (e : α) (its : List (ℕ × α)) (n : ℕ) (ha : Avl t) :
    Avl ((put root t e its n).1) ∧
      realHeight t ≤ realHeight ((put root t e its n).1) ∧
      realHeight ((put root t e its n).1) ≤ realHeight t + 1 := by
  induction t with
  | leaf =>
      refine ⟨⟨trivial, trivial, by simp [realHeight], by simp [realHeight],
        by simp [realHeight]⟩, ?_, ?_⟩ <;> simp [put, realHeight]
  | node v h l r it ihl ihr =>
      obtain ⟨hall, halr, hst, hb1, hb2⟩ := ha
      by_cases hc : e < v
      · rcases hp : put root l e its n with ⟨l2, its2, n2⟩
        have ih := ihl hall
        rw [hp] at ih
        dsimp only at ih
        obtain ⟨ha2, hg1, hg2⟩ := ih
        simp only [put, if_pos hc, hp]
        obtain ⟨hA, h1, h2, h3⟩ :=
          balance_spec v h l2 r it ha2 halr (by omega) (by omega)
        refine ⟨hA, ?_, ?_⟩
        · by_cases hcc1 : realHeight l2 ≤ realHeight r + 1
          · by_cases hcc2 : realHeight r ≤ realHeight l2 + 1
            · have h4 := h3 hcc1 hcc2
              simp only [realHeight]
              omega
            · simp only [realHeight]
              omega
          · simp only [realHeight]
            omega
        · simp only [realHeight]
          omega
      · rcases hp : put root r e its n with ⟨r2, its2, n2⟩
        have ih := ihr halr
        rw [hp] at ih
        dsimp only at ih
        obtain ⟨ha2, hg1, hg2⟩ := ih
        simp only [put, if_neg hc, hp]
        obtain ⟨hA, h1, h2, h3⟩ :=
          balance_spec v h l r2 it hall ha2 (by omega) (by omega)
        refine ⟨hA, ?_, ?_⟩
        · by_cases hcc1 : realHeight l ≤ realHeight r2 + 1
          · by_cases hcc2 : realHeight r2 ≤ realHeight l + 1
            · have h4 := h3 hcc1 hcc2
              simp only [realHeight]
              omega
            · simp only [realHeight]
              omega
          · simp only [realHeight]
            omega
        · simp only [realHeight]
          omega

theorem find_min_shape (t : Tree α) (hne : t ≠ Tree.leaf) :
    ∃ mv mh mr mit, find_min t = Tree.node mv mh Tree.leaf mr mit := by
  induction t with
  | leaf => exact absurd rfl hne
  | node v h l r it ihl ihr =>
      rcases l with _ | ⟨lv, lh, ll, lr, lit⟩
      · exact ⟨v, h, r, it, rfl⟩
      · simpa only [find_min] using ihl (by simp)

theorem remove_min_spec (t : Tree α) (ha : Avl t) :
    Avl (remove_min t) ∧ realHeight (remove_min t) ≤ realHeight t ∧
      realHeight t ≤ realHeight (remove_min t) + 1 := by
  induction t with
  | leaf => exact ⟨trivial, le_refl _, by simp [remove_min]⟩
  | node v h l r it ihl ihr =>
      obtain ⟨hall, halr, hst, hb1, hb2⟩ := ha
      rcases l with _ | ⟨lv, lh, ll, lr, lit⟩
      · refine ⟨halr, ?_, ?_⟩ <;> simp only [remove_min, realHeight_node, realHeight_leaf] <;>
          omega
      · simp only [remove_min]
        obtain ⟨ha2, hg1, hg2⟩ := ihl hall
        simp only [realHeight_node, realHeight_leaf] at hb1 hb2 hg1 hg2
        obtain ⟨hA, h1, h2, h3⟩ :=
          balance_spec v h (remove_min (Tree.node lv lh ll lr lit)) r it ha2 halr
            (by omega) (by omega)
        refine ⟨hA, ?_, ?_⟩
        · simp only [realHeight_node, realHeight_leaf]
          omega
        · by_cases hcc1 :
            realHeight (remove_min (Tree.node lv lh ll lr lit)) ≤ realHeight r + 1
          · by_cases hcc2 :
              realHeight r ≤ realHeight (remove_min (Tree.node lv lh ll lr lit)) + 1
            · have h4 := h3 hcc1 hcc2
              simp only [realHeight_node, realHeight_leaf]
              omega
            · simp only [realHeight_node, realHeight_leaf]
              omega
          · simp only [realHeight_node, realHeight_leaf]
            omega

theorem del_avl (t : Tree α) (e : α) (its : List (ℕ × α)) (ha : Avl t) :
    Avl ((del t e its).1) ∧ realHeight ((del t e its).1) ≤ realHeight t ∧
      realHeight t ≤ realHeight ((del t e its).1) + 1 := by
  induction t with
  | leaf => exact ⟨trivial, le_refl _, by simp [del]⟩
  | node v h l r it ihl ihr =>
      obtain ⟨hall, halr, hst, hb1, hb2⟩ := ha
      by_cases hc1 : e < v
      · rcases hp : del l e its with ⟨l2, its2⟩
        have ih := ihl hall
        rw [hp] at ih
        dsimp only at ih
        obtain ⟨ha2, hg1, hg2⟩ := ih
        simp only [del, if_pos hc1, hp]
        obtain ⟨hA, h1, h2, h3⟩ :=
          balance_spec v h l2 r it ha2 halr (by omega) (by omega)
        refine ⟨hA, ?_, ?_⟩
        · simp only [realHeight]
          omega
        · by_cases hcc1 : realHeight l2 ≤ realHeight r + 1
          · by_cases hcc2 : realHeight r ≤ realHeight l2 + 1
            · have h4 := h3 hcc1 hcc2
              simp only [realHeight]
              omega
            · simp only [realHeight]
              omega
          · simp only [realHeight]
            omega
      · by_cases hc2 : v < e
        · rcases hp : del r e its with ⟨r2, its2⟩
          have ih := ihr halr
          rw [hp] at ih
          dsimp only at ih
          obtain ⟨ha2, hg1, hg2⟩ := ih
          simp only [del, if_neg hc1, if_pos hc2, hp]
          obtain ⟨hA, h1, h2, h3⟩ :=
            balance_spec v h l r2 it hall ha2 (by omega) (by omega)
          refine ⟨hA, ?_, ?_⟩
          · simp only [realHeight]
            omega
          · by_cases hcc1 : realHeight l ≤ realHeight r2 + 1
            · by_cases hcc2 : realHeight r2 ≤ realHeight l + 1
              · have h4 := h3 hcc1 hcc2
                simp only [realHeight]
                omega
              · simp only [realHeight]
                omega
            · simp only [realHeight]
              omega
        · simp only [del, if_neg hc1, if_neg hc2]
          rcases r with _ | ⟨rv, rh, rl, rr, rit⟩
          · refine ⟨hall, ?_, ?_⟩ <;> simp [realHeight] <;> omega
          · obtain ⟨mv, mh2, mr, mit, hfm⟩ :=
              find_min_shape (Tree.node rv rh rl rr rit) (by simp)
            simp only [hfm]
            obtain ⟨ha2, hg1, hg2⟩ := remove_min_spec (Tree.node rv rh rl rr rit) halr
            simp only [realHeight_node, realHeight_leaf] at hb1 hb2 hg1 hg2
            obtain ⟨hA, h1, h2, h3⟩ :=
              balance_spec mv mh2 l (remove_min (Tree.node rv rh rl rr rit)) mit hall ha2
                (by omega) (by omega)
            refine ⟨hA, ?_, ?_⟩
            · simp only [realHeight_node, realHeight_leaf]
              omega
            · by_cases hcc1 :
                realHeight l ≤ realHeight (remove_min (Tree.node rv rh rl rr rit)) + 1
              · by_cases hcc2 :
                  realHeight (remove_min (Tree.node rv rh rl rr rit)) ≤ realHeight l + 1
                · have h4 := h3 hcc1 hcc2
                  simp only [realHeight_node, realHeight_leaf]
                  omega
                · simp only [realHeight_node, realHeight_leaf]
                  omega
              · simp only [realHeight_node, realHeight_leaf]
                omega

/-! ### Characterizations of search and lb on sorted trees. -/

theorem find?_cons_pos (p : ℕ × α → Bool) (a : ℕ × α) (l : List (ℕ × α))
    (h : p a = true) : (a :: l).find? p = some a := by
  simp [List.find?, h]

theorem find?_cons_neg (p : ℕ × α → Bool) (a : ℕ × α) (l : List (ℕ × α))
    (h : p a = false) : (a :: l).find? p = l.find? p := by
  simp [List.find?, h]

theorem lb_eq_find (t : Tree α) (e : α) (hs : List.Sorted (· < ·) (vals t)) :
    lb t e = ((pairs t).find? (fun p => decide (e ≤ p.2))).map Prod.fst := by
  induction t with
  | leaf => simp [lb, pairs]
  | node v h l r it ihl ihr =>
      obtain ⟨hsl, hsr, hlv, hvr⟩ := sorted_node_unpack hs
      by_cases hc : e < v
      · have hpred : (fun p : ℕ × α => decide (e ≤ p.2)) (it, v) = true := by
          simp [hc.le]
        cases hfl : lb l e with
        | none =>
            have hfind : (pairs l).find? (fun p => decide (e ≤ p.2)) = none := by
              have hil := ihl hsl
              rw [hfl] at hil
              cases h2 : (pairs l).find? (fun p => decide (e ≤ p.2)) with
              | none => rfl
              | some p =>
                  rw [h2] at hil
                  simp at hil
            simp only [lb, if_pos hc, hfl, pairs, List.find?_append, hfind,
              Option.none_or]
            rw [find?_cons_pos (fun p => decide (e ≤ p.2)) (it, v) (pairs r) hpred]
            rfl
        | some x =>
            have hil := ihl hsl
            rw [hfl] at hil
            cases h2 : (pairs l).find? (fun p => decide (e ≤ p.2)) with
            | none =>
                rw [h2] at hil
                simp at hil
            | some p =>
                rw [h2] at hil
                simp only [Option.map_some'] at hil
                simp only [lb, if_pos hc, hfl, pairs, List.find?_append, h2]
                simpa using hil
      · by_cases hc2 : v < e
        · have hnone : (pairs l).find? (fun p => decide (e ≤ p.2)) = none := by
            rw [List.find?_eq_none]
            intro p hp
            have hpv : p.2 < v := hlv p.2 (List.mem_map_of_mem Prod.snd hp)
            simp [not_le.mpr (hpv.trans hc2)]
          have hpred : (fun p : ℕ × α => decide (e ≤ p.2)) (it, v) = false := by
            simp [not_le.mpr hc2]
          simp only [lb, if_neg hc, if_pos hc2, pairs, List.find?_append, hnone,
            Option.none_or]
          rw [find?_cons_neg (fun p => decide (e ≤ p.2)) (it, v) (pairs r) hpred]
          exact ihr hsr
        · have hev : v = e := le_antisymm (not_lt.mp hc) (not_lt.mp hc2)
          have hnone : (pairs l).find? (fun p => decide (e ≤ p.2)) = none := by
            rw [List.find?_eq_none]
            intro p hp
            have hpv : p.2 < v := hlv p.2 (List.mem_map_of_mem Prod.snd hp)
            rw [hev] at hpv
            simp [not_le.mpr hpv]
          simp only [lb, if_neg hc, if_neg hc2, pairs, List.find?_append, hnone,
            Option.none_or]
          rw [find?_cons_pos (fun p => decide (e ≤ p.2)) (it, v) (pairs r) (by simp [hev.ge])]
          rfl

theorem search_eq_find (t : Tree α) (e : α) (hs : List.Sorted (· < ·) (vals t)) :
    search t e = ((pairs t).find? (fun p => decide (p.2 = e))).map Prod.fst := by
  induction t with
  | leaf => simp [search, pairs]
  | node v h l r it ihl ihr =>
      obtain ⟨hsl, hsr, hlv, hvr⟩ := sorted_node_unpack hs
      by_cases hc : e < v
      · have hnr : ((it, v) :: pairs r).find? (fun p => decide (p.2 = e)) = none := by
          rw [List.find?_eq_none]
          intro p hp
          rcases List.mem_cons.mp hp with rfl | hmem
          · simp [hc.ne']
          · have hvp : v < p.2 := hvr p.2 (List.mem_map_of_mem Prod.snd hmem)
            simp [(hc.trans hvp).ne']
        simp only [search, if_pos hc, pairs, List.find?_append, hnr, Option.or_none]
        exact ihl hsl
      · by_cases hc2 : v < e
        · have hnl : (pairs l).find? (fun p => decide (p.2 = e)) = none := by
            rw [List.find?_eq_none]
            intro p hp
            have hpv : p.2 < v := hlv p.2 (List.mem_map_of_mem Prod.snd hp)
            simp [(hpv.trans hc2).ne]
          simp only [search, if_neg hc, if_pos hc2, pairs, List.find?_append, hnl,
            Option.none_or]
          rw [find?_cons_neg (fun p => decide (p.2 = e)) (it, v) (pairs r)
            (by simp [hc2.ne])]
          exact ihr hsr
        · have hev : v = e := le_antisymm (not_lt.mp hc) (not_lt.mp hc2)
          have hnl : (pairs l).find? (fun p => decide (p.2 = e)) = none := by
            rw [List.find?_eq_none]
            intro p hp
            have hpv : p.2 < v := hlv p.2 (List.mem_map_of_mem Prod.snd hp)
            rw [hev] at hpv
            simp [hpv.ne]
          simp only [search, if_neg hc, if_neg hc2, pairs, List.find?_append, hnl,
            Option.none_or]
          rw [find?_cons_pos (fun p => decide (p.2 = e)) (it, v) (pairs r) (by simp [hev])]
          rfl

theorem search_none_iff (t : Tree α) (e : α) (hs : List.Sorted (· < ·) (vals t)) :
    search t e = none ↔ e ∉ vals t := by
  rw [search_eq_find t e hs]
  cases hf : (pairs t).find? (fun p => decide (p.2 = e)) with
  | none =>
      simp only [Option.map_none']
      rw [List.find?_eq_none] at hf
      simp only [true_iff]
      intro hmem
      obtain ⟨p, hp, hpe⟩ := List.mem_map.mp hmem
      exact hf p hp (by simp [hpe])
  | some p =>
      simp only [Option.map_some']
      constructor
      · intro hx
        exact absurd hx (by simp)
      · intro hmem
        exfalso
        refine hmem ?_
        have hpe : p.2 = e := by simpa using List.find?_some hf
        exact hpe ▸ List.mem_map_of_mem Prod.snd (List.mem_of_find?_eq_some hf)

theorem search_some_mem (t : Tree α) (e : α) (i : ℕ)
    (hs : List.Sorted (· < ·) (vals t)) (hf : search t e = some i) :
    (i, e) ∈ pairs t := by
  rw [search_eq_find t e hs] at hf
  cases h2 : (pairs t).find? (fun p => decide (p.2 = e)) with
  | none => rw [h2] at hf; simp at hf
  | some p =>
      rw [h2] at hf
      simp only [Option.map_some', Option.some.injEq] at hf
      have hpe : p.2 = e := by simpa using List.find?_some h2
      have hmem := List.mem_of_find?_eq_some h2
      have : p = (i, e) := by
        rcases p with ⟨p1, p2⟩
        simp_all
      rwa [this] at hmem

theorem sorted_find?_min (ps : List (ℕ × α)) (e : α) (p : ℕ × α)
    (hs : List.Sorted (· < ·) (ps.map Prod.snd))
    (hf : ps.find? (fun q => decide (e ≤ q.2)) = some p) :
    ∀ q ∈ ps, e ≤ q.2 → p.2 ≤ q.2 := by
  induction ps with
  | nil => simp at hf
  | cons x rest ih =>
      rw [List.map_cons, List.sorted_cons] at hs
      by_cases hx : e ≤ x.2
      · rw [find?_cons_pos (fun q => decide (e ≤ q.2)) x rest (by simp [hx])] at hf
        have hpx : p = x := by simpa using hf.symm
        intro q hq hqe
        rcases List.mem_cons.mp hq with rfl | hmem
        · rw [hpx]
        · exact hpx ▸ (hs.1 q.2 (List.mem_map_of_mem Prod.snd hmem)).le
      · rw [find?_cons_neg (fun q => decide (e ≤ q.2)) x rest (by simp [hx])] at hf
        intro q hq hqe
        rcases List.mem_cons.mp hq with rfl | hmem
        · exact absurd hqe hx
        · exact ih hs.2 hf q hmem hqe

theorem insertBeforeOpt_find (ps : List (ℕ × α)) (e : α) (n : ℕ)
    (hnd : (ps.map Prod.fst).Nodup) :
    insertBeforeOpt ps (((ps.find? (fun p => decide (e ≤ p.2))).map Prod.fst)) (n, e) =
      seqInsert ps e n := by
  induction ps with
  | nil => simp [insertBeforeOpt, seqInsert_nil]
  | cons q rest ih =>
      rw [List.map_cons, List.nodup_cons] at hnd
      by_cases hq : e ≤ q.2
      · rw [find?_cons_pos (fun p => decide (e ≤ p.2)) q rest (by simp [hq])]
        have hseq : seqInsert (q :: rest) e n = (n, e) :: q :: rest := by
          rw [seqInsert]
          simp [List.takeWhile, List.dropWhile, not_lt.mpr hq]
        rw [hseq]
        simp [insertBeforeOpt, insertBeforeId]
      · rw [find?_cons_neg (fun p => decide (e ≤ p.2)) q rest (by simp [hq])]
        have hqe : q.2 < e := not_le.mp hq
        have hseq : seqInsert (q :: rest) e n = q :: seqInsert rest e n := by
          rw [seqInsert, seqInsert]
          simp [List.takeWhile, List.dropWhile, hqe]
        rw [hseq, ← ih hnd.2]
        cases hfr : rest.find? (fun p => decide (e ≤ p.2)) with
        | none => simp [insertBeforeOpt]
        | some p =>
            have hpmem : p ∈ rest := List.mem_of_find?_eq_some hfr
            have hp1 : q.1 ≠ p.1 := by
              intro hcontra
              exact hnd.1 (hcontra ▸ List.mem_map_of_mem Prod.fst hpmem)
            simp only [Option.map_some', insertBeforeOpt, insertBeforeId]
            rw [if_neg hp1]

/-! ### The items and tree components of del. -/

theorem del_items (t : Tree α) (e : α) (its : List (ℕ × α)) :
    (del t e its).2 = match search t e with
      | none => its
      | some i => eraseId its i := by
  induction t with
  | leaf => simp [del, search]
  | node v h l r it ihl ihr =>
      by_cases hc1 : e < v
      · rcases hp : del l e its with ⟨l2, its2⟩
        rw [hp] at ihl
        simp only [del, if_pos hc1, hp, search]
        exact ihl
      · by_cases hc2 : v < e
        · rcases hp : del r e its with ⟨r2, its2⟩
          rw [hp] at ihr
          simp only [del, if_neg hc1, if_pos hc2, hp, search]
          exact ihr
        · simp only [del, if_neg hc1, if_neg hc2, search]
          rcases r with _ | ⟨rv, rh, rl, rr, rit⟩
          · rfl
          · obtain ⟨mv, mh2, mr, mit, hfm⟩ :=
              find_min_shape (Tree.node rv rh rl rr rit) (by simp)
            simp only [hfm]

theorem eraseP_append_first (p : ℕ × α → Bool) (l1 l2 : List (ℕ × α))
    (h : ∀ x ∈ l1, p x = false) :
    (l1 ++ l2).eraseP p = l1 ++ l2.eraseP p := by
  induction l1 with
  | nil => simp
  | cons x rest ih =>
      have hx := h x (List.mem_cons_self x rest)
      simp only [List.cons_append]
      rw [List.eraseP_cons_of_neg (by simp [hx])]
      simp [ih fun y hy => h y (List.mem_cons_of_mem x hy)]

theorem eraseP_append_second (p : ℕ × α → Bool) (l1 l2 : List (ℕ × α))
    (h : ∀ x ∈ l2, p x = false) :
    (l1 ++ l2).eraseP p = l1.eraseP p ++ l2 := by
  induction l1 with
  | nil =>
      simp only [List.nil_append]
      exact List.eraseP_of_forall_not fun x hx => by simp [h x hx]
  | cons x rest ih =>
      by_cases hx : p x = true
      · simp only [List.cons_append]
        rw [List.eraseP_cons_of_pos hx, List.eraseP_cons_of_pos hx]
      · have hx2 : p x = false := by
          cases h2 : p x
          · rfl
          · exact absurd h2 hx
        simp only [List.cons_append]
        rw [List.eraseP_cons_of_neg (by simp [hx2]), List.eraseP_cons_of_neg (by simp [hx2])]
        simp [ih]

theorem pairs_min (t : Tree α) {mv : α} {mh : ℕ} {mr : Tree α} {mit : ℕ}
    (hne : t ≠ Tree.leaf) (hfm : find_min t = Tree.node mv mh Tree.leaf mr mit) :
    pairs t = (mit, mv) :: pairs (remove_min t) := by
  induction t with
  | leaf => exact absurd rfl hne
  | node v h l r it ihl ihr =>
      rcases l with _ | ⟨lv, lh, ll, lr, lit⟩
      · simp only [find_min, Tree.node.injEq] at hfm
        obtain ⟨h1, h2, h3, h4, h5⟩ := hfm
        subst h1
        subst h4
        subst h5
        simp [remove_min, pairs]
      · simp only [find_min] at hfm
        have hrec := ihl (by simp) hfm
        have h1 : pairs (Tree.node v h (Tree.node lv lh ll lr lit) r it) =
            pairs (Tree.node lv lh ll lr lit) ++ (it, v) :: pairs r := rfl
        rw [h1, hrec]
        simp only [remove_min, pairs_balance]
        have h2 : pairs (Tree.node v h (remove_min (Tree.node lv lh ll lr lit)) r it) =
            pairs (remove_min (Tree.node lv lh ll lr lit)) ++ (it, v) :: pairs r := rfl
        rw [h2]
        simp

theorem del_tree_pairs (t : Tree α) (e : α) (its : List (ℕ × α))
    (hs : List.Sorted (· < ·) (vals t)) :
    pairs ((del t e its).1) = (pairs t).eraseP (fun p => decide (p.2 = e)) := by
  induction t with
  | leaf => simp [del, pairs]
  | node v h l r it ihl ihr =>
      obtain ⟨hsl, hsr, hlv, hvr⟩ := sorted_node_unpack hs
      by_cases hc1 : e < v
      · rcases hp : del l e its with ⟨l2, its2⟩
        have ih := ihl hsl
        rw [hp] at ih
        dsimp only at ih
        simp only [del, if_pos hc1, hp, pairs_balance, pairs]
        rw [ih]
        have hnr : ∀ x ∈ (it, v) :: pairs r, (fun p : ℕ × α => decide (p.2 = e)) x = false := by
          intro x hx
          rcases List.mem_cons.mp hx with rfl | hmem
          · simp [hc1.ne']
          · have hvx : v < x.2 := hvr x.2 (List.mem_map_of_mem Prod.snd hmem)
            simp [(hc1.trans hvx).ne']
        exact (eraseP_append_second _ _ _ hnr).symm
      · by_cases hc2 : v < e
        · rcases hp : del r e its with ⟨r2, its2⟩
          have ih := ihr hsr
          rw [hp] at ih
          dsimp only at ih
          simp only [del, if_neg hc1, if_pos hc2, hp, pairs_balance, pairs]
          rw [ih]
          have hnl : ∀ x ∈ pairs l, (fun p : ℕ × α => decide (p.2 = e)) x = false := by
            intro x hx
            have hxv : x.2 < v := hlv x.2 (List.mem_map_of_mem Prod.snd hx)
            simp [(hxv.trans hc2).ne]
          rw [eraseP_append_first _ _ _ hnl]
          rw [List.eraseP_cons_of_neg (by simp [hc2.ne])]
        · have hev : v = e := le_antisymm (not_lt.mp hc1) (not_lt.mp hc2)
          have hnl : ∀ x ∈ pairs l, (fun p : ℕ × α => decide (p.2 = e)) x = false := by
            intro x hx
            have hxv : x.2 < v := hlv x.2 (List.mem_map_of_mem Prod.snd hx)
            rw [hev] at hxv
            simp [hxv.ne]
          simp only [del, if_neg hc1, if_neg hc2]
          rcases r with _ | ⟨rv, rh, rl, rr, rit⟩
          · simp only [pairs]
            rw [eraseP_append_first _ _ _ hnl]
            rw [List.eraseP_cons_of_pos (by simp [hev])]
            simp [pairs]
          · obtain ⟨mv, mh2, mr, mit, hfm⟩ :=
              find_min_shape (Tree.node rv rh rl rr rit) (by simp)
            simp only [hfm, pairs_balance]
            have hmin := pairs_min (Tree.node rv rh rl rr rit) (by simp) hfm
            have hL : pairs (Tree.node mv mh2 l
                (remove_min (Tree.node rv rh rl rr rit)) mit) =
                pairs l ++ (mit, mv) :: pairs (remove_min (Tree.node rv rh rl rr rit)) := rfl
            have hR : pairs (Tree.node v h l (Tree.node rv rh rl rr rit) it) =
                pairs l ++ (it, v) :: pairs (Tree.node rv rh rl rr rit) := rfl
            rw [hL, hR, eraseP_append_first _ _ _ hnl,
              List.eraseP_cons_of_pos (by simp [hev]), hmin]

/-! ### eraseId and uniqueness lemmas. -/

theorem snd_unique (ps : List (ℕ × α))
    (hs : List.Sorted (· < ·) (ps.map Prod.snd)) (p q : ℕ × α)
    (hp : p ∈ ps) (hq : q ∈ ps) (he : p.2 = q.2) : p = q := by
  induction ps with
  | nil => simp at hp
  | cons x rest ih =>
      rw [List.map_cons, List.sorted_cons] at hs
      rcases List.mem_cons.mp hp with rfl | hpm
      · rcases List.mem_cons.mp hq with rfl | hqm
        · rfl
        · exact absurd he (hs.1 q.2 (List.mem_map_of_mem Prod.snd hqm)).ne
      · rcases List.mem_cons.mp hq with rfl | hqm
        · exact absurd he.symm (hs.1 p.2 (List.mem_map_of_mem Prod.snd hpm)).ne
        · exact ih hs.2 hpm hqm

theorem eraseId_eq_eraseP (ps : List (ℕ × α)) (i : ℕ) (e : α)
    (hnd : (ps.map Prod.fst).Nodup) (hmem : (i, e) ∈ ps)
    (huniq : ∀ p ∈ ps, p.2 = e → p = (i, e)) :
    eraseId ps i = ps.eraseP (fun p => decide (p.2 = e)) := by
  induction ps with
  | nil => simp at hmem
  | cons q rest ih =>
      rw [List.map_cons, List.nodup_cons] at hnd
      by_cases hq1 : q.1 = i
      · have hqe : q = (i, e) := by
          rcases List.mem_cons.mp hmem with h1 | h1
          · exact h1.symm
          · exact absurd (hq1 ▸ List.mem_map_of_mem Prod.fst h1) hnd.1
        rw [eraseId, if_pos hq1, List.eraseP_cons_of_pos (by simp [hqe])]
      · have hq2 : q.2 ≠ e := by
          intro hcontra
          exact hq1 (by rw [huniq q (List.mem_cons_self q rest) hcontra])
        have hm2 : (i, e) ∈ rest := by
          rcases List.mem_cons.mp hmem with h1 | h1
          · exact absurd (congrArg Prod.fst h1.symm) hq1
          · exact h1
        rw [eraseId, if_neg hq1, List.eraseP_cons_of_neg (by simp [hq2])]
        rw [ih hnd.2 hm2 fun p hp hpe => huniq p (List.mem_cons_of_mem q hp) hpe]

theorem eraseId_length_mem (ps : List (ℕ × α)) (i : ℕ)
    (h : i ∈ ps.map Prod.fst) : (eraseId ps i).length + 1 = ps.length := by
  induction ps with
  | nil => simp at h
  | cons q rest ih =>
      by_cases hq : q.1 = i
      · rw [eraseId, if_pos hq]
        simp
      · rw [eraseId, if_neg hq]
        rw [List.map_cons, List.mem_cons] at h
        rcases h with h1 | h1
        · exact absurd h1.symm hq
        · simp only [List.length_cons]
          rw [← ih h1]

theorem eraseId_append_not (l1 l2 : List (ℕ × α)) (tid : ℕ)
    (h : ∀ q ∈ l1, q.1 ≠ tid) :
    eraseId (l1 ++ l2) tid = l1 ++ eraseId l2 tid := by
  induction l1 with
  | nil => simp
  | cons x rest ih =>
      simp only [List.cons_append, eraseId,
        if_neg (h x (List.mem_cons_self x rest))]
      simp [ih fun q hq => h q (List.mem_cons_of_mem x hq)]

/-! ### Preservation of the coupling invariant. -/

theorem insert_inv {s : Set α} (hInv : Inv s) (e : α) : Inv (s.insert e) := by
  by_cases hg : s.find e = none
  · rcases hp : put s.root s.root e s.items s.nid with ⟨r2, its2, n2⟩
    have hg2 : search s.root e = none := hg
    have hres : s.insert e = ⟨r2, s.sz + 1, its2, n2⟩ := by
      simp [Set.insert, hg, hp]
    have hnotmem : e ∉ vals s.root := (search_none_iff s.root e hInv.sorted).mp hg2
    have hne : ∀ x ∈ vals s.root, x ≠ e := fun x hx hxe => hnotmem (hxe ▸ hx)
    have hnep : ∀ p ∈ pairs s.root, p.2 ≠ e :=
      fun p hp2 => hne p.2 (List.mem_map_of_mem Prod.snd hp2)
    have hsnd := put_snd s.root s.root e s.items s.nid
    rw [hp] at hsnd
    dsimp only at hsnd
    have hpairs2 : pairs r2 = seqInsert (pairs s.root) e s.nid := by
      have h2 := put_tree_pairs s.root s.root e s.items s.nid hInv.sorted hne
      rw [hp] at h2
      exact h2
    have hnd2 : (s.items.map Prod.fst).Nodup := by
      rw [hInv.items_eq]
      exact hInv.ids_nodup
    have hitems2 : its2 = seqInsert s.items e s.nid := by
      rw [hsnd.1, lb_eq_find s.root e hInv.sorted, ← hInv.items_eq]
      exact insertBeforeOpt_find s.items e s.nid hnd2
    rw [hres]
    rw [hsnd.2]
    refine ⟨?_, ?_, ?_, ?_, ?_, ?_⟩
    · show its2 = pairs r2
      rw [hitems2, hpairs2, hInv.items_eq]
    · show List.Sorted (· < ·) ((pairs r2).map Prod.snd)
      rw [hpairs2]
      exact sorted_seqInsert (pairs s.root) e s.nid hInv.sorted hnep
    · show ∀ p ∈ pairs r2, p.1 < s.nid + 1
      intro p hp2
      rw [hpairs2] at hp2
      rcases (mem_seqInsert (pairs s.root) e s.nid p).mp hp2 with rfl | hp3
      · omega
      · have := hInv.ids_lt p hp3
        omega
    · rw [hpairs2]
      exact seqInsert_ids_nodup (pairs s.root) e s.nid hInv.ids_nodup hInv.ids_lt
    · show Avl r2
      have h2 := (put_avl s.root s.root e s.items s.nid hInv.avl).1
      rw [hp] at h2
      exact h2
    · show s.sz + 1 = its2.length
      rw [hitems2, seqInsert_length, hInv.sz_eq]
  · rw [Set.insert, if_neg hg]
    exact hInv

theorem erase_inv {s : Set α} (hInv : Inv s) (e : α) : Inv (s.erase e) := by
  by_cases hg : s.find e = none
  · simp only [Set.erase, hg, ne_eq, not_true_eq_false, if_false]
    exact hInv
  · obtain ⟨i, hi⟩ : ∃ i, search s.root e = some i := by
      cases h2 : s.find e with
      | none => exact absurd h2 hg
      | some i => exact ⟨i, h2⟩
    have hmem : (i, e) ∈ pairs s.root := search_some_mem s.root e i hInv.sorted hi
    rcases hp : del s.root e s.items with ⟨r2, its2⟩
    have hres : s.erase e = ⟨r2, s.sz - 1, its2, s.nid⟩ := by
      simp [Set.erase, hg, hp]
    have hdi := del_items s.root e s.items
    rw [hp, hi] at hdi
    dsimp only at hdi
    have hdp := del_tree_pairs s.root e s.items hInv.sorted
    rw [hp] at hdp
    dsimp only at hdp
    have huniq : ∀ p ∈ pairs s.root, p.2 = e → p = (i, e) := fun p hp2 hpe =>
      snd_unique (pairs s.root) hInv.sorted p (i, e) hp2 hmem (by simp [hpe])
    have hitems2 : its2 = (pairs s.root).eraseP (fun p => decide (p.2 = e)) := by
      rw [hdi, hInv.items_eq]
      exact eraseId_eq_eraseP (pairs s.root) i e hInv.ids_nodup hmem huniq
    have hsub : List.Sublist (pairs r2) (pairs s.root) := by
      rw [hdp]
      exact List.eraseP_sublist (pairs s.root)
    rw [hres]
    refine ⟨?_, ?_, ?_, ?_, ?_, ?_⟩
    · show its2 = pairs r2
      rw [hitems2, hdp]
    · show List.Sorted (· < ·) ((pairs r2).map Prod.snd)
      exact List.Pairwise.sublist (hsub.map Prod.snd) hInv.sorted
    · show ∀ p ∈ pairs r2, p.1 < s.nid
      intro p hp2
      exact hInv.ids_lt p (hsub.subset hp2)
    · show ((pairs r2).map Prod.fst).Nodup
      exact List.Nodup.sublist (hsub.map Prod.fst) hInv.ids_nodup
    · show Avl r2
      have h2 := (del_avl s.root e s.items hInv.avl).1
      rw [hp] at h2
      exact h2
    · show s.sz - 1 = its2.length
      have hlen : (eraseId s.items i).length + 1 = s.items.length := by
        refine eraseId_length_mem s.items i ?_
        rw [hInv.items_eq]
        exact List.mem_map_of_mem Prod.fst hmem
      rw [hdi, hInv.sz_eq]
      omega

theorem inv_empty : Inv (emptySet : Set α) :=
  ⟨rfl, List.sorted_nil, by simp [emptySet, pairs], by simp [emptySet, pairs],
    trivial, rfl⟩

theorem reach_inv {s : Set α} (h : Reachable s) : Inv s := by
  induction h with
  | empty => exact inv_empty
  | ins s a hr ih => exact insert_inv ih a
  | ers s a hr ih => exact erase_inv ih a

/-! ### Membership dynamics of insert and erase. -/

theorem insert_absent {s : Set α} (hInv : Inv s) (e : α) (hg : s.find e = none) :
    (s.insert e).items = seqInsert s.items e s.nid ∧
      (s.insert e).sz = s.sz + 1 ∧ (s.insert e).nid = s.nid + 1 ∧
      pairs (s.insert e).root = seqInsert (pairs s.root) e s.nid ∧
      (s.insert e).items = insertBeforeOpt s.items (lb s.root e) (s.nid, e) := by
  rcases hp : put s.root s.root e s.items s.nid with ⟨r2, its2, n2⟩
  have hg2 : search s.root e = none := hg
  have hres : s.insert e = ⟨r2, s.sz + 1, its2, n2⟩ := by
    simp [Set.insert, hg, hp]
  have hnotmem : e ∉ vals s.root := (search_none_iff s.root e hInv.sorted).mp hg2
  have hne : ∀ x ∈ vals s.root, x ≠ e := fun x hx hxe => hnotmem (hxe ▸ hx)
  have hsnd := put_snd s.root s.root e s.items s.nid
  rw [hp] at hsnd
  dsimp only at hsnd
  have hnd2 : (s.items.map Prod.fst).Nodup := by
    rw [hInv.items_eq]
    exact hInv.ids_nodup
  have hitems2 : its2 = seqInsert s.items e s.nid := by
    rw [hsnd.1, lb_eq_find s.root e hInv.sorted, ← hInv.items_eq]
    exact insertBeforeOpt_find s.items e s.nid hnd2
  have hpairs2 : pairs r2 = seqInsert (pairs s.root) e s.nid := by
    have h2 := put_tree_pairs s.root s.root e s.items s.nid hInv.sorted hne
    rw [hp] at h2
    exact h2
  rw [hres]
  exact ⟨hitems2, rfl, hsnd.2, hpairs2, hsnd.1⟩

theorem insert_present {s : Set α} (e : α) (hg : s.find e ≠ none) :
    s.insert e = s := by
  rw [Set.insert, if_neg hg]

theorem erase_absent {s : Set α} (e : α) (hg : s.find e = none) :
    s.erase e = s := by
  simp only [Set.erase, hg, ne_eq, not_true_eq_false, if_false]

theorem find_ne_none_iff {s : Set α} (hInv : Inv s) (e : α) :
    s.find e ≠ none ↔ e ∈ s.items.map Prod.snd := by
  have h2 := search_none_iff s.root e hInv.sorted
  rw [hInv.items_eq]
  constructor
  · intro hne
    by_contra hmem
    exact hne (h2.mpr hmem)
  · intro hmem hnone
    exact (h2.mp hnone) hmem

theorem vals_insert_mem {s : Set α} (hInv : Inv s) (e x : α) :
    x ∈ vals (s.insert e).root ↔ x = e ∨ x ∈ vals s.root := by
  by_cases hg : s.find e = none
  · obtain ⟨-, -, -, hpairs2, -⟩ := insert_absent hInv e hg
    show x ∈ (pairs (s.insert e).root).map Prod.snd ↔ _
    rw [hpairs2]
    exact mem_seqInsert_snd (pairs s.root) e s.nid x
  · rw [insert_present e hg]
    have hmem : e ∈ vals s.root := by
      have h2 := (find_ne_none_iff hInv e).mp hg
      rwa [hInv.items_eq] at h2
    constructor
    · exact Or.inr
    · rintro (rfl | h2)
      · exact hmem
      · exact h2

theorem mem_eraseP_vals (ps : List (ℕ × α)) (e x : α)
    (hs : List.Sorted (· < ·) (ps.map Prod.snd)) (i : ℕ) (hmem : (i, e) ∈ ps) :
    x ∈ (ps.eraseP (fun p => decide (p.2 = e))).map Prod.snd ↔
      x ∈ ps.map Prod.snd ∧ x ≠ e := by
  induction ps with
  | nil => simp at hmem
  | cons q rest ih =>
      rw [List.map_cons, List.sorted_cons] at hs
      by_cases hqe : q.2 = e
      · rw [List.eraseP_cons_of_pos (by simp [hqe])]
        have henot : e ∉ rest.map Prod.snd := by
          intro hcontra
          obtain ⟨p, hp, hpe⟩ := List.mem_map.mp hcontra
          have := hs.1 p.2 (List.mem_map_of_mem Prod.snd hp)
          rw [hqe, hpe] at this
          exact lt_irrefl e this
        constructor
        · intro hx
          refine ⟨List.mem_cons_of_mem _ hx, ?_⟩
          intro hcontra
          exact henot (hcontra ▸ hx)
        · rintro ⟨hx, hxe⟩
          rcases List.mem_cons.mp hx with rfl | h2
          · exact absurd hqe hxe
          · exact h2
      · rw [List.eraseP_cons_of_neg (by simp [hqe])]
        have hm2 : (i, e) ∈ rest := by
          rcases List.mem_cons.mp hmem with h1 | h1
          · exact absurd (congrArg Prod.snd h1.symm) hqe
          · exact h1
        rw [List.map_cons, List.map_cons]
        constructor
        · intro hx
          rcases List.mem_cons.mp hx with rfl | h2
          · exact ⟨List.mem_cons_self _ _, hqe⟩
          · obtain ⟨h3, h4⟩ := (ih hs.2 hm2).mp h2
            exact ⟨List.mem_cons_of_mem _ h3, h4⟩
        · rintro ⟨hx, hxe⟩
          rcases List.mem_cons.mp hx with rfl | h2
          · exact List.mem_cons_self _ _
          · exact List.mem_cons_of_mem _ ((ih hs.2 hm2).mpr ⟨h2, hxe⟩)

theorem erase_present_pairs {s : Set α} (hInv : Inv s) (e : α)
    (hg : s.find e ≠ none) :
    pairs (s.erase e).root = (pairs s.root).eraseP (fun p => decide (p.2 = e)) ∧
      (s.erase e).sz = s.sz - 1 ∧ (s.erase e).nid = s.nid := by
  obtain ⟨i, hi⟩ : ∃ i, search s.root e = some i := by
    cases h2 : s.find e with
    | none => exact absurd h2 hg
    | some i => exact ⟨i, h2⟩
  rcases hp : del s.root e s.items with ⟨r2, its2⟩
  have hres : s.erase e = ⟨r2, s.sz - 1, its2, s.nid⟩ := by
    simp [Set.erase, hg, hp]
  have hdp := del_tree_pairs s.root e s.items hInv.sorted
  rw [hp] at hdp
  dsimp only at hdp
  rw [hres]
  exact ⟨hdp, rfl, rfl⟩

theorem vals_erase_mem {s : Set α} (hInv : Inv s) (e x : α) :
    x ∈ vals (s.erase e).root ↔ x ∈ vals s.root ∧ x ≠ e := by
  by_cases hg : s.find e = none
  · rw [erase_absent e hg]
    have hnot : e ∉ vals s.root := (search_none_iff s.root e hInv.sorted).mp hg
    constructor
    · intro hx
      refine ⟨hx, ?_⟩
      intro hcontra
      exact hnot (hcontra ▸ hx)
    · exact fun h2 => h2.1
  · obtain ⟨i, hi⟩ : ∃ i, search s.root e = some i := by
      cases h2 : s.find e with
      | none => exact absurd h2 hg
      | some i => exact ⟨i, h2⟩
    have hmem : (i, e) ∈ pairs s.root := search_some_mem s.root e i hInv.sorted hi
    obtain ⟨hdp, -, -⟩ := erase_present_pairs hInv e hg
    show x ∈ (pairs (s.erase e).root).map Prod.snd ↔ _
    rw [hdp]
    exact mem_eraseP_vals (pairs s.root) e x hInv.sorted i hmem

theorem find_insert_self {s : Set α} (hInv : Inv s) (e : α) (hg : s.find e = none) :
    (s.insert e).find e = some s.nid := by
  obtain ⟨-, -, -, hpairs2, -⟩ := insert_absent hInv e hg
  have hInv2 : Inv (s.insert e) := insert_inv hInv e
  have hmem : e ∈ vals (s.insert e).root := (vals_insert_mem hInv e e).mpr (Or.inl rfl)
  have hne : (s.insert e).find e ≠ none := by
    intro hcontra
    exact (search_none_iff _ e hInv2.sorted).mp hcontra hmem
  obtain ⟨i, hi⟩ : ∃ i, search (s.insert e).root e = some i := by
    cases h2 : (s.insert e).find e with
    | none => exact absurd h2 hne
    | some i => exact ⟨i, h2⟩
  have hmem2 : (i, e) ∈ pairs (s.insert e).root :=
    search_some_mem _ e i hInv2.sorted hi
  rw [hpairs2] at hmem2
  rcases (mem_seqInsert (pairs s.root) e s.nid (i, e)).mp hmem2 with h2 | h2
  · have : i = s.nid := congrArg Prod.fst h2
    show search (s.insert e).root e = some s.nid
    rw [hi, this]
  · exfalso
    have hnotmem : e ∉ vals s.root := (search_none_iff s.root e hInv.sorted).mp hg
    exact hnotmem (List.mem_map_of_mem Prod.snd h2)

theorem insert_erase_id {s : Set α} (hInv : Inv s) (e : α) (hg : s.find e = none) :
    ((s.insert e).erase e).items = s.items ∧ ((s.insert e).erase e).sz = s.sz := by
  obtain ⟨hitems2, hsz2, hnid2, hpairs2, -⟩ := insert_absent hInv e hg
  have hfind2 : (s.insert e).find e = some s.nid := find_insert_self hInv e hg
  have hne2 : (s.insert e).find e ≠ none := by
    rw [hfind2]
    simp
  rcases hp : del (s.insert e).root e (s.insert e).items with ⟨r3, its3⟩
  have hres : (s.insert e).erase e = ⟨r3, (s.insert e).sz - 1, its3, (s.insert e).nid⟩ := by
    simp [Set.erase, hne2, hp]
  have hsearch2 : search (s.insert e).root e = some s.nid := hfind2
  have hdi := del_items (s.insert e).root e (s.insert e).items
  rw [hp, hsearch2] at hdi
  dsimp only at hdi
  have hits3 : its3 = s.items := by
    rw [hdi, hitems2, seqInsert]
    have hids : ∀ q ∈ s.items.takeWhile (fun p : ℕ × α => decide (p.2 < e)), q.1 ≠ s.nid := by
      intro q hq
      have hq2 : q ∈ s.items := (List.takeWhile_prefix _).subset hq
      have : q.1 < s.nid := by
        refine hInv.ids_lt q ?_
        rwa [hInv.items_eq] at hq2
      omega
    rw [eraseId_append_not _ _ _ hids, eraseId, if_pos rfl]
    exact List.takeWhile_append_dropWhile _ _
  rw [hres]
  refine ⟨hits3, ?_⟩
  rw [hsz2]
  simp

theorem insert_idem {s : Set α} (hInv : Inv s) (e : α) :
    (s.insert e).insert e = s.insert e := by
  by_cases hg : s.find e = none
  · have h2 : (s.insert e).find e ≠ none := by
      rw [find_insert_self hInv e hg]
      simp
    rw [Set.insert, if_neg h2]
  · have h0 : s.insert e = s := insert_present e hg
    rw [h0]
    exact h0

/-! ### Run histories and membership. -/

theorem reachable_foldl (ops : List (Op α)) :
    ∀ s : Set α, Reachable s → Reachable (ops.foldl step s) := by
  induction ops with
  | nil => exact fun s hs => hs
  | cons op rest ih =>
      intro s hs
      rw [List.foldl_cons]
      refine ih (step s op) ?_
      cases op with
      | ins a => exact Reachable.ins s a hs
      | ers a => exact Reachable.ers s a hs

theorem reachable_run (ops : List (Op α)) : Reachable (run ops) :=
  reachable_foldl ops emptySet Reachable.empty

theorem mem_run_accum (e : α) (ops : List (Op α)) :
    ∀ (s : Set α) (m : Bool), Inv s → (e ∈ s.items.map Prod.snd ↔ m = true) →
      (e ∈ (ops.foldl step s).items.map Prod.snd ↔ memAccum m ops e = true) := by
  induction ops with
  | nil =>
      intro s m hInv hbase
      simpa [memAccum] using hbase
  | cons op rest ih =>
      intro s m hInv hbase
      rw [List.foldl_cons]
      have hbase2 : e ∈ s.items.map Prod.snd ↔ e ∈ vals s.root := by
        rw [hInv.items_eq]
        exact Iff.rfl
      cases op with
      | ins a =>
          have hacc : memAccum m (Op.ins a :: rest) e =
              memAccum (if a = e then true else m) rest e := rfl
          rw [hacc]
          refine ih (s.insert a) _ (insert_inv hInv a) ?_
          have hv := vals_insert_mem hInv a e
          have hi2 : (s.insert a).items.map Prod.snd = vals (s.insert a).root := by
            rw [(insert_inv hInv a).items_eq]
            exact rfl
          rw [hi2, hv]
          by_cases hae : a = e
          · subst hae
            simp
          · rw [if_neg hae]
            rw [← hbase]
            constructor
            · rintro (rfl | h2)
              · exact absurd rfl hae
              · rwa [hbase2]
            · intro h2
              right
              rwa [← hbase2]
      | ers a =>
          have hacc : memAccum m (Op.ers a :: rest) e =
              memAccum (if a = e then false else m) rest e := rfl
          rw [hacc]
          refine ih (s.erase a) _ (erase_inv hInv a) ?_
          have hv := vals_erase_mem hInv a e
          have hi2 : (s.erase a).items.map Prod.snd = vals (s.erase a).root := by
            rw [(erase_inv hInv a).items_eq]
            exact rfl
          rw [hi2, hv]
          by_cases hae : a = e
          · subst hae
            simp
          · rw [if_neg hae]
            rw [← hbase]
            constructor
            · rintro ⟨h2, -⟩
              rwa [hbase2]
            · intro h2
              refine ⟨?_, fun hcontra => hae hcontra.symm⟩
              rwa [← hbase2]

/-! ### Copying by re-insertion of an ascending value list. -/

theorem takeWhile_all (p : ℕ × α → Bool) (l : List (ℕ × α))
    (h : ∀ x ∈ l, p x = true) : l.takeWhile p = l ∧ l.dropWhile p = [] := by
  constructor
  · have h2 := takeWhile_append_all p l [] h
    simpa using h2
  · have h2 := dropWhile_append_all p l [] h
    simpa using h2

theorem fold_insert_ascending (vs : List α) :
    ∀ acc : Set α, Inv acc → List.Sorted (· < ·) vs →
      (∀ w ∈ acc.items.map Prod.snd, ∀ v ∈ vs, w < v) →
      (vs.foldl (fun a v => a.insert v) acc).items.map Prod.snd =
          acc.items.map Prod.snd ++ vs ∧
        Inv (vs.foldl (fun a v => a.insert v) acc) := by
  induction vs with
  | nil =>
      intro acc hInv _ _
      exact ⟨by simp, hInv⟩
  | cons v rest ih =>
      intro acc hInv hsort hlt
      rw [List.foldl_cons]
      rw [List.sorted_cons] at hsort
      have habs : acc.find v = none := by
        by_contra hne
        have hmem := (find_ne_none_iff hInv v).mp hne
        exact lt_irrefl v (hlt v hmem v (List.mem_cons_self v rest))
      obtain ⟨hitems2, -, -, -, -⟩ := insert_absent hInv v habs
      have hvals2 : (acc.insert v).items.map Prod.snd =
          acc.items.map Prod.snd ++ [v] := by
        rw [hitems2, seqInsert]
        have hall : ∀ x ∈ acc.items, (fun p : ℕ × α => decide (p.2 < v)) x = true := by
          intro x hx
          simp [hlt x.2 (List.mem_map_of_mem Prod.snd hx) v (List.mem_cons_self v rest)]
        obtain ⟨ht, hd⟩ := takeWhile_all _ acc.items hall
        rw [ht, hd]
        simp
      have hInv2 := insert_inv hInv v
      have hcond : ∀ w ∈ (acc.insert v).items.map Prod.snd, ∀ u ∈ rest, w < u := by
        intro w hw u hu
        rw [hvals2] at hw
        rcases List.mem_append.mp hw with h2 | h2
        · exact hlt w h2 u (List.mem_cons_of_mem v hu)
        · have : w = v := by simpa using h2
          exact this ▸ hsort.1 u hu
      obtain ⟨hv1, hv2⟩ := ih (acc.insert v) hInv2 hsort.2 hcond
      refine ⟨?_, hv2⟩
      rw [hv1, hvals2]
      simp

/-! ### The Fibonacci lower bound on node counts and the height bound. -/

theorem avl_fib (t : Tree α) (ha : Avl t) :
    Nat.fib (realHeight t + 2) ≤ nodeCount t + 1 := by
  induction t with
  | leaf => simp [realHeight, nodeCount]
  | node v h l r it ihl ihr =>
      obtain ⟨hal, har, -, hb1, hb2⟩ := ha
      have ih1 := ihl hal
      have ih2 := ihr har
      have hcount : nodeCount (Tree.node v h l r it) =
          nodeCount l + nodeCount r + 1 := rfl
      rcases le_total (realHeight l) (realHeight r) with hle | hle
      · have hidx : realHeight (Tree.node v h l r it) + 2 = realHeight r + 1 + 2 := by
          rw [realHeight_node]
          omega
        have hfib : Nat.fib (realHeight r + 1 + 2) =
            Nat.fib (realHeight r + 1) + Nat.fib (realHeight r + 2) := Nat.fib_add_two
        have hmono : Nat.fib (realHeight r + 1) ≤ Nat.fib (realHeight l + 2) :=
          Nat.fib_mono (by omega)
        rw [hidx, hfib, hcount]
        omega
      · have hidx : realHeight (Tree.node v h l r it) + 2 = realHeight l + 1 + 2 := by
          rw [realHeight_node]
          omega
        have hfib : Nat.fib (realHeight l + 1 + 2) =
            Nat.fib (realHeight l + 1) + Nat.fib (realHeight l + 2) := Nat.fib_add_two
        have hmono : Nat.fib (realHeight l + 1) ≤ Nat.fib (realHeight r + 2) :=
          Nat.fib_mono (by omega)
        rw [hidx, hfib, hcount]
        omega

theorem sqrt5_sq : Real.sqrt 5 ^ 2 = 5 := Real.sq_sqrt (by norm_num)

theorem phiR_pos : (0:ℝ) < phiR := by
  rw [phiR]
  nlinarith [Real.sqrt_nonneg 5]

theorem one_lt_phiR : (1:ℝ) < phiR := by
  rw [phiR]
  nlinarith [sqrt5_sq, Real.sqrt_nonneg 5]

theorem phiR_le_two : phiR ≤ 2 := by
  rw [phiR]
  nlinarith [sqrt5_sq, Real.sqrt_nonneg 5]

theorem phiR_sq : phiR ^ 2 = phiR + 1 := by
  rw [phiR]
  have h5 := sqrt5_sq
  ring_nf
  nlinarith [h5]

theorem phiR_pow_le_fib : ∀ n : ℕ, phiR ^ n ≤ (Nat.fib (n + 2) : ℝ) := by
  intro n
  induction n using Nat.strong_induction_on with
  | _ n ih =>
      match n with
      | 0 => simp
      | 1 =>
          have h2 : Nat.fib 3 = 2 := rfl
          rw [h2, pow_one]
          exact_mod_cast phiR_le_two
      | (m + 2) =>
          have h1 := ih m (by omega)
          have h2 := ih (m + 1) (by omega)
          have hexp : phiR ^ (m + 2) = phiR ^ (m + 1) + phiR ^ m := by
            have : phiR ^ (m + 2) = phiR ^ m * phiR ^ 2 := by ring
            rw [this, phiR_sq]
            ring
          have hfib : Nat.fib (m + 2 + 2) = Nat.fib (m + 2) + Nat.fib (m + 3) :=
            Nat.fib_add_two
          rw [hexp, hfib]
          push_cast
          have : (m : ℕ) + 1 + 2 = m + 3 := by omega
          rw [this] at h2
          linarith

theorem fib_le_phiR_pow : ∀ n : ℕ, (Nat.fib (n + 1) : ℝ) ≤ phiR ^ n := by
  intro n
  induction n using Nat.strong_induction_on with
  | _ n ih =>
      match n with
      | 0 => simp
      | 1 =>
          have h2 : Nat.fib 2 = 1 := rfl
          rw [h2, pow_one]
          exact_mod_cast one_lt_phiR.le
      | (m + 2) =>
          have h1 := ih m (by omega)
          have h2 := ih (m + 1) (by omega)
          have hexp : phiR ^ (m + 2) = phiR ^ (m + 1) + phiR ^ m := by
            have : phiR ^ (m + 2) = phiR ^ m * phiR ^ 2 := by ring
            rw [this, phiR_sq]
            ring
          have hfib : Nat.fib (m + 2 + 1) = Nat.fib (m + 1) + Nat.fib (m + 2) :=
            Nat.fib_add_two
          rw [hexp, hfib]
          push_cast
          have h3 : (m : ℕ) + 1 + 1 = m + 2 := by omega
          rw [h3] at h2
          linarith

set_option maxRecDepth 4000 in
theorem fib_401_value : Nat.fib 401 =
    284812298108489611757988937681460995615380088782304890986477195645969271404032323901 := by
  rfl

theorem two_pow_le_fib_401 : (2:ℝ) ^ (277:ℕ) ≤ (Nat.fib 401 : ℝ) := by
  have hnat : 2 ^ 277 ≤ Nat.fib 401 := by
    rw [fib_401_value]
    norm_num
  exact_mod_cast hnat

theorem logb2_phiR_ge : (277:ℝ) / 400 ≤ Real.logb 2 phiR := by
  have h1 : (2:ℝ) ^ (277:ℕ) ≤ phiR ^ (400:ℕ) :=
    le_trans two_pow_le_fib_401 (fib_le_phiR_pow 400)
  have h2 := Real.logb_le_logb_of_le (by norm_num : (1:ℝ) < 2)
    (by positivity : (0:ℝ) < 2 ^ (277:ℕ)) h1
  rw [Real.logb_pow, Real.logb_pow] at h2
  have h3 : Real.logb 2 2 = 1 := by
    simp
  rw [h3] at h2
  push_cast at h2
  linarith

theorem height_log_bound {s : Set α} (hInv : Inv s) :
    (realHeight s.root : ℝ) ≤ 1.445 * Real.logb 2 ((s.sz : ℝ) + 2) := by
  have hfib : Nat.fib (realHeight s.root + 2) ≤ s.sz + 1 := by
    have h1 := avl_fib s.root hInv.avl
    have hcount : nodeCount s.root = s.sz := by
      rw [hInv.sz_eq, hInv.items_eq, ← length_pairs]
    omega
  have h1 : phiR ^ realHeight s.root ≤ ((s.sz : ℝ) + 2) := by
    refine le_trans (phiR_pow_le_fib _) ?_
    have h2 : (Nat.fib (realHeight s.root + 2) : ℝ) ≤ (s.sz : ℝ) + 1 := by
      exact_mod_cast hfib
    linarith
  have h2 : (realHeight s.root : ℝ) * Real.logb 2 phiR ≤
      Real.logb 2 ((s.sz : ℝ) + 2) := by
    have h3 := Real.logb_le_logb_of_le (by norm_num : (1:ℝ) < 2)
      (pow_pos phiR_pos _) h1
    rwa [Real.logb_pow] at h3
  have h3 := logb2_phiR_ge
  have h4 : (0:ℝ) ≤ Real.logb 2 ((s.sz : ℝ) + 2) := by
    refine Real.logb_nonneg (by norm_num) ?_
    have h0 : (0:ℝ) ≤ (s.sz : ℝ) := Nat.cast_nonneg _
    linarith
  have h5 : (0:ℝ) ≤ (realHeight s.root : ℝ) := Nat.cast_nonneg _
  linarith [mul_le_mul_of_nonneg_left h3 h5]

/-! ### The claims. -/

theorem sampleSet_reachable : Reachable sampleSet :=
  Reachable.ers _ 5 (Reachable.ins _ 1 (Reachable.ins _ 3
    (Reachable.ins _ 5 (Reachable.ins _ 2 Reachable.empty))))

/-- C1: starting from an empty Set, after any sequence of insert and erase
operations, forward iteration from begin() to end() (the mirror list
front to back) visits the stored elements in strictly ascending order
under the element order, hence with no duplicates and no two
order-equivalent elements. -/
theorem claim_C1 (s : Set α) (hs : Reachable s) :
    List.Sorted (· < ·) (s.items.map Prod.snd) := by
  have hInv := reach_inv hs
  rw [hInv.items_eq]
  exact hInv.sorted

/-- Witness for C1 at a concrete reachable state. -/
theorem claim_C1_witness :
    Reachable sampleSet ∧ List.Sorted (· < ·) (sampleSet.items.map Prod.snd) :=
  ⟨sampleSet_reachable, claim_C1 sampleSet sampleSet_reachable⟩

/-- C2: after any operation from the empty Set, every node satisfies the
AVL conditions — the stored height field equals 1 + max of the children's
actual heights and the two child heights differ by at most 1 (the
predicate Avl) — and the tree height is bounded by about 1.44 * log2
(size + 2): the exact constant is 1 / logb 2 phi = 1.4404, below the
stated 1.445. -/
theorem claim_C2 (s : Set α) (hs : Reachable s) :
    Avl s.root ∧
      (realHeight s.root : ℝ) ≤ 1.445 * Real.logb 2 ((Set.size s : ℝ) + 2) := by
  have hInv := reach_inv hs
  exact ⟨hInv.avl, height_log_bound hInv⟩

/-- Witness for C2 at a concrete reachable state. -/
theorem claim_C2_witness :
    Reachable sampleSet ∧ (Avl sampleSet.root ∧
      (realHeight sampleSet.root : ℝ) ≤
        1.445 * Real.logb 2 ((Set.size sampleSet : ℝ) + 2)) :=
  ⟨sampleSet_reachable, claim_C2 sampleSet sampleSet_reachable⟩

/-- C3: in every reachable state, lower_bound e returns the end sentinel
(none) exactly when no stored element is ≥ e, and otherwise returns the
mirror-list cell of the smallest stored element that is not less than
e. -/
theorem claim_C3 (s : Set α) (hs : Reachable s) (e : α) :
    (s.lower_bound e = none ↔ ∀ v ∈ s.items.map Prod.snd, v < e) ∧
      ∀ i, s.lower_bound e = some i →
        ∃ w, (i, w) ∈ s.items ∧ e ≤ w ∧
          ∀ v ∈ s.items.map Prod.snd, e ≤ v → w ≤ v := by
  have hInv := reach_inv hs
  have hsorted : List.Sorted (· < ·) (s.items.map Prod.snd) := by
    rw [hInv.items_eq]
    exact hInv.sorted
  have hlb : s.lower_bound e =
      ((s.items).find? (fun p => decide (e ≤ p.2))).map Prod.fst := by
    show lb s.root e = _
    rw [lb_eq_find s.root e hInv.sorted, hInv.items_eq]
  constructor
  · rw [hlb]
    cases hf : s.items.find? (fun p => decide (e ≤ p.2)) with
    | none =>
        simp only [Option.map_none']
        rw [List.find?_eq_none] at hf
        constructor
        · intro _ v hv
          obtain ⟨p, hp, rfl⟩ := List.mem_map.mp hv
          have h2 := hf p hp
          simp only [decide_eq_true_eq] at h2
          exact not_le.mp h2
        · intro _
          trivial
    | some p =>
        simp only [Option.map_some']
        constructor
        · intro h2
          exact absurd h2 (by simp)
        · intro hall
          exfalso
          have hpe : e ≤ p.2 := by simpa using List.find?_some hf
          have hpm : p.2 ∈ s.items.map Prod.snd :=
            List.mem_map_of_mem Prod.snd (List.mem_of_find?_eq_some hf)
          exact absurd (hall p.2 hpm) (not_lt.mpr hpe)
  · intro i hi
    rw [hlb] at hi
    cases hf : s.items.find? (fun p => decide (e ≤ p.2)) with
    | none =>
        rw [hf] at hi
        simp at hi
    | some p =>
        rw [hf] at hi
        simp only [Option.map_some', Option.some.injEq] at hi
        refine ⟨p.2, ?_, ?_, ?_⟩
        · have hm := List.mem_of_find?_eq_some hf
          have hp : p = (i, p.2) := by
            rcases p with ⟨p1, p2⟩
            simp only at hi ⊢
            rw [hi]
          rwa [hp] at hm
        · simpa using List.find?_some hf
        · intro v hv hev
          obtain ⟨q, hq, rfl⟩ := List.mem_map.mp hv
          exact sorted_find?_min s.items e p hsorted hf q hq hev

/-- Witness for C3 at a concrete reachable state and element. -/
theorem claim_C3_witness :
    Reachable sampleSet ∧
      ((sampleSet.lower_bound 4 = none ↔
          ∀ v ∈ sampleSet.items.map Prod.snd, v < 4) ∧
        ∀ i, sampleSet.lower_bound 4 = some i →
          ∃ w, (i, w) ∈ sampleSet.items ∧ 4 ≤ w ∧
            ∀ v ∈ sampleSet.items.map Prod.snd, 4 ≤ v → w ≤ v) :=
  ⟨sampleSet_reachable, claim_C3 sampleSet sampleSet_reachable 4⟩

/-- C4 as stated is false: when e is already present, insert e is a no-op
but erase e removes it, so the pair does not return to the prior state.
Concretely with oneSet = the reachable one-element state holding 0,
inserting 0 then erasing 0 changes the size and the iteration order. -/
theorem claim_C4_counterexample :
    ¬ (((oneSet.insert 0).erase 0).size = oneSet.size ∧
        ((oneSet.insert 0).erase 0).items.map Prod.snd =
          oneSet.items.map Prod.snd) := by
  decide

/-- C4 amended: when e is NOT already present (find e is the end
sentinel), insert e followed by erase e returns the container to its
prior size and its prior iteration sequence (in fact the mirror list is
restored cell for cell). -/
theorem claim_C4 (s : Set α) (hs : Reachable s) (e : α) (he : s.find e = none) :
    ((s.insert e).erase e).size = s.size ∧
      ((s.insert e).erase e).items = s.items := by
  have hInv := reach_inv hs
  obtain ⟨h1, h2⟩ := insert_erase_id hInv e he
  exact ⟨h2, h1⟩

/-- Witness for the amended C4 at a concrete reachable state. -/
theorem claim_C4_witness :
    Reachable sampleSet ∧ sampleSet.find 7 = none ∧
      (((sampleSet.insert 7).erase 7).size = sampleSet.size ∧
        ((sampleSet.insert 7).erase 7).items = sampleSet.items) := by
  have hf : sampleSet.find 7 = none := by decide
  exact ⟨sampleSet_reachable, hf, claim_C4 sampleSet sampleSet_reachable 7 hf⟩

/-- C5: insert e is a no-op when an order-equal element is present;
otherwise it makes e present and increments the size by exactly one; and
inserting twice equals inserting once (the second insert returns the
state unchanged). -/
theorem claim_C5 (s : Set α) (hs : Reachable s) (e : α) :
    ((∃ v ∈ s.items.map Prod.snd, ¬ v < e ∧ ¬ e < v) → s.insert e = s) ∧
      ((∀ v ∈ s.items.map Prod.snd, v < e ∨ e < v) →
        (s.insert e).size = s.size + 1 ∧
          e ∈ (s.insert e).items.map Prod.snd) ∧
      (s.insert e).insert e = s.insert e := by
  have hInv := reach_inv hs
  refine ⟨?_, ?_, insert_idem hInv e⟩
  · rintro ⟨v, hv, hv1, hv2⟩
    have hve : v = e := le_antisymm (not_lt.mp hv2) (not_lt.mp hv1)
    refine insert_present e ?_
    rw [find_ne_none_iff hInv e]
    exact hve ▸ hv
  · intro hall
    have habs : s.find e = none := by
      by_contra hne
      have hmem := (find_ne_none_iff hInv e).mp hne
      rcases hall e hmem with h2 | h2 <;> exact lt_irrefl e h2
    obtain ⟨hitems2, hsz2, -, -, -⟩ := insert_absent hInv e habs
    refine ⟨hsz2, ?_⟩
    rw [hitems2]
    exact (mem_seqInsert_snd s.items e s.nid e).mpr (Or.inl rfl)

/-- Witness for C5 at a concrete reachable state and element. -/
theorem claim_C5_witness :
    Reachable sampleSet ∧
      (((∃ v ∈ sampleSet.items.map Prod.snd, ¬ v < 3 ∧ ¬ (3:ℤ) < v) →
          sampleSet.insert 3 = sampleSet) ∧
        ((∀ v ∈ sampleSet.items.map Prod.snd, v < 3 ∨ (3:ℤ) < v) →
          (sampleSet.insert 3).size = sampleSet.size + 1 ∧
            (3:ℤ) ∈ (sampleSet.insert 3).items.map Prod.snd) ∧
        (sampleSet.insert 3).insert 3 = sampleSet.insert 3) :=
  ⟨sampleSet_reachable, claim_C5 sampleSet sampleSet_reachable 3⟩

/-- C6: when insert adds an absent element e, the new mirror-list cell is
placed immediately before the cell returned by lower_bound e computed on
the pre-insertion tree from the tree root (appended at the back when that
lower bound is the end sentinel) — this is the first conjunct, literally
the items produced by the leaf case of put — and after all ancestor
rebalancing the whole mirror list still coincides with the in-order
(cell, value) listing of the new tree, so the chosen position is the
correct sorted position of e. -/
theorem claim_C6 (s : Set α) (hs : Reachable s) (e : α) (he : s.find e = none) :
    (s.insert e).items = insertBeforeOpt s.items (s.lower_bound e) (s.nid, e) ∧
      pairs (s.insert e).root = (s.insert e).items := by
  have hInv := reach_inv hs
  obtain ⟨-, -, -, -, h5⟩ := insert_absent hInv e he
  exact ⟨h5, ((insert_inv hInv e).items_eq).symm⟩

/-- Witness for C6 at a concrete reachable state and element. -/
theorem claim_C6_witness :
    Reachable sampleSet ∧ sampleSet.find 4 = none ∧
      ((sampleSet.insert 4).items =
          insertBeforeOpt sampleSet.items (sampleSet.lower_bound 4)
            (sampleSet.nid, 4) ∧
        pairs (sampleSet.insert 4).root = (sampleSet.insert 4).items) := by
  have hf : sampleSet.find 4 = none := by decide
  exact ⟨sampleSet_reachable, hf, claim_C6 sampleSet sampleSet_reachable 4 hf⟩

/-- C7: for every element e and every operation sequence from the empty
container, find e returns a non-end position exactly when e was inserted
and not subsequently erased (memAfter), and in that case the returned
position's mirror-list cell holds exactly the value e. -/
theorem claim_C7 (ops : List (Op α)) (e : α) :
    ((run ops).find e ≠ none ↔ memAfter ops e = true) ∧
      ∀ i, (run ops).find e = some i → (i, e) ∈ (run ops).items := by
  have hInv := reach_inv (reachable_run ops)
  constructor
  · rw [find_ne_none_iff hInv e]
    exact mem_run_accum e ops emptySet false inv_empty (by simp [emptySet])
  · intro i hi
    have hmem := search_some_mem (run ops).root e i hInv.sorted hi
    rwa [← hInv.items_eq] at hmem

/-- C8: the two rotations only rewire tree edges and recompute the two
affected stored heights: the in-order listing of (mirror cell, value)
bindings is exactly preserved, so no node's value or mirror-cell
reference changes, and the mirror list itself (which the rotations never
receive) is untouched; every node's cell reference therefore still names
the cell holding its own value after a rotation. -/
theorem claim_C8 (t : Tree α) :
    pairs (rotate_left t) = pairs t ∧ pairs (rotate_right t) = pairs t :=
  ⟨pairs_rotate_left t, pairs_rotate_right t⟩

/-- C9: copy construction and copy assignment rebuild the container by
re-inserting the source's mirror sequence in order into a fresh empty
state (copySet); the copy has the same size and the same iteration order
of values as the source.  In this embedding the copy shares no state
with the source by construction — copySet returns a value built from a
fresh emptySet — which is the no-structural-sharing half of the claim. -/
theorem claim_C9 (s : Set α) (hs : Reachable s) :
    (copySet s).size = s.size ∧
      (copySet s).items.map Prod.snd = s.items.map Prod.snd := by
  have hInv := reach_inv hs
  have hfold : copySet s =
      (s.items.map Prod.snd).foldl (fun a v => a.insert v) emptySet := by
    rw [copySet, List.foldl_map]
  have hsorted : List.Sorted (· < ·) (s.items.map Prod.snd) := by
    rw [hInv.items_eq]
    exact hInv.sorted
  obtain ⟨h1, h2⟩ := fold_insert_ascending (s.items.map Prod.snd) emptySet
    inv_empty hsorted (by simp [emptySet])
  have h3 : (copySet s).items.map Prod.snd = s.items.map Prod.snd := by
    rw [hfold, h1]
    simp [emptySet]
  refine ⟨?_, h3⟩
  have h4 : Inv (copySet s) := hfold ▸ h2
  show (copySet s).sz = s.sz
  rw [h4.sz_eq, hInv.sz_eq]
  have h5 := congrArg List.length h3
  simpa using h5

/-- Witness for C9 at a concrete reachable state. -/
theorem claim_C9_witness :
    Reachable sampleSet ∧
      ((copySet sampleSet).size = sampleSet.size ∧
        (copySet sampleSet).items.map Prod.snd =
          sampleSet.items.map Prod.snd) :=
  ⟨sampleSet_reachable, claim_C9 sampleSet sampleSet_reachable⟩

/-- C10: in every reachable state the stored count equals the length of
the mirror sequence and the number of tree nodes; size returns it and
empty is true exactly when it is zero; and whenever erase's guard (find
returning a valid position) passes, the count is at least 1, so the
decrement cannot underflow. -/
theorem claim_C10 (s : Set α) (hs : Reachable s) :
    Set.size s = s.items.length ∧ Set.size s = nodeCount s.root ∧
      (Set.empty s = true ↔ Set.size s = 0) ∧
      ∀ e : α, s.find e ≠ none → 1 ≤ Set.size s := by
  have hInv := reach_inv hs
  refine ⟨hInv.sz_eq, ?_, ?_, ?_⟩
  · show s.sz = nodeCount s.root
    rw [hInv.sz_eq, hInv.items_eq, length_pairs]
  · show decide (s.sz = 0) = true ↔ s.sz = 0
    simp
  · intro e hne
    have hmem := (find_ne_none_iff hInv e).mp hne
    show 1 ≤ s.sz
    rw [hInv.sz_eq]
    have hlen : s.items ≠ [] := by
      intro h2
      rw [h2] at hmem
      simp at hmem
    have hpos := List.length_pos.mpr hlen
    omega

/-- Witness for C10 at a concrete reachable state. -/
theorem claim_C10_witness :
    Reachable sampleSet ∧
      (Set.size sampleSet = sampleSet.items.length ∧
        Set.size sampleSet = nodeCount sampleSet.root ∧
        (Set.empty sampleSet = true ↔ Set.size sampleSet = 0) ∧
        ∀ e : ℤ, sampleSet.find e ≠ none → 1 ≤ Set.size sampleSet) :=
  ⟨sampleSet_reachable, claim_C10 sampleSet sampleSet_reachable⟩

end AVL
